import Mathlib

/-!
Verification of the `minislug` slugifier.

Strings are modelled as `List Char` (a Rust `String` is a sequence of
Unicode scalar values; `String::len` is its UTF-8 byte length, modelled by
`utf8Len`; `String::pop` removes the last scalar value, modelled by
`List.dropLast`).

The two cargo features of the crate (`unicode` and `transliterate`) are
modelled as two explicit `Bool` parameters `fu` and `ft` of the slugifier,
matching the compile-time `cfg` gates in `src/lib.rs`.

The Rust standard library's Unicode character data that the crate consults
(`char::is_alphanumeric`, `char::to_lowercase`, `char::is_uppercase`) is
modelled by a record `UnicodeTables` carrying those three functions
together with the facts about the real Unicode tables that the proofs
rely on.  The ASCII-only classifiers (`is_ascii_alphanumeric`,
`to_ascii_lowercase`, `is_control`, `is_whitespace`) are small and are
modelled exactly.
-/

namespace Minislug

/-- Rust `char::is_control`: the Unicode `Cc` category, which is exactly
U+0000..U+001F together with U+007F..U+009F. -/
def is_rust_control (c : Char) : Bool :=
  decide (c.toNat < 0x20) || (decide (0x7F ≤ c.toNat) && decide (c.toNat ≤ 0x9F))

/-- Rust `char::is_whitespace`: the Unicode `White_Space` property, a fixed
set of 25 code points. -/
def is_rust_whitespace (c : Char) : Bool :=
  (decide (0x09 ≤ c.toNat) && decide (c.toNat ≤ 0x0D)) ||
  decide (c.toNat = 0x20) || decide (c.toNat = 0x85) || decide (c.toNat = 0xA0) ||
  decide (c.toNat = 0x1680) ||
  (decide (0x2000 ≤ c.toNat) && decide (c.toNat ≤ 0x200A)) ||
  decide (c.toNat = 0x2028) || decide (c.toNat = 0x2029) ||
  decide (c.toNat = 0x202F) || decide (c.toNat = 0x205F) || decide (c.toNat = 0x3000)

/-- Rust `char::is_ascii_alphanumeric`: `'0'..='9' | 'A'..='Z' | 'a'..='z'`. -/
def is_ascii_alphanumeric (c : Char) : Bool :=
  (decide (48 ≤ c.toNat) && decide (c.toNat ≤ 57)) ||
  (decide (65 ≤ c.toNat) && decide (c.toNat ≤ 90)) ||
  (decide (97 ≤ c.toNat) && decide (c.toNat ≤ 122))

/-- Rust `char::to_ascii_lowercase`: maps `A`-`Z` to `a`-`z`, identity otherwise. -/
def to_ascii_lowercase (c : Char) : Char :=
  if 65 ≤ c.toNat ∧ c.toNat ≤ 90 then Char.ofNat (c.toNat + 32) else c

/-- Rust `char::to_ascii_uppercase`: maps `a`-`z` to `A`-`Z`, identity otherwise. -/
def to_ascii_uppercase (c : Char) : Char :=
  if 97 ≤ c.toNat ∧ c.toNat ≤ 122 then Char.ofNat (c.toNat - 32) else c

/-- UTF-8 byte length of a string modelled as a char list (Rust `String::len`). -/
def utf8Len (l : List Char) : Nat :=
  (l.map Char.utf8Size).sum

/-- The six characters that never come out of the Unicode classifier paths:
the four allow-listed separator characters plus `.` and space. -/
def notSpecial (c : Char) : Prop :=
  c ≠ '-' ∧ c ≠ '_' ∧ c ≠ '+' ∧ c ≠ '~' ∧ c ≠ '.' ∧ c ≠ ' '

/-- Model of the Rust standard library's Unicode character data used by the
crate: `char::is_alphanumeric` (Unicode Alphabetic or Nd/Nl/No),
`char::to_lowercase` (full Unicode lowercase expansion) and
`char::is_uppercase` (Unicode Uppercase).  The three accompanying facts are
true of the real Unicode tables: alphanumeric characters are never one of
the separator/dot/space characters, their lowercase expansions are non-empty
and likewise avoid those characters. -/
structure UnicodeTables where
  isAlphanumeric : Char → Bool
  toLowerChars : Char → List Char
  isUppercase : Char → Bool
  alnum_not_special : ∀ c, isAlphanumeric c = true → notSpecial c
  toLower_not_special : ∀ c c₂, isAlphanumeric c = true → c₂ ∈ toLowerChars c → notSpecial c₂
  toLower_nonnil : ∀ c, isAlphanumeric c = true → toLowerChars c ≠ []

/-! # src/translit.rs -/

/-- `case_adjust` from `src/translit.rs`: optionally title-case the first
ASCII letter of a substitution. -/
def case_adjust (s : List Char) (title_case : Bool) : List Char :=
  if title_case = false ∨ s = [] then s
  else
    match s with
    | [] => []
    | a :: rest => to_ascii_uppercase a :: rest

/-- `transliterate` from `src/translit.rs`: map a single non-ASCII char to an
ASCII-ish replacement string, `none` when no mapping exists.  The Rust
`let is_upper = ch.is_uppercase() && !lowercase` is modelled by the equivalent
`if lowercase then false else U.isUppercase ch` (both conjuncts are pure, so
the short-circuit conjunction commutes). -/
def transliterate (U : UnicodeTables) (ch : Char) (lowercase : Bool) : Option (List Char) :=
  if ch.toNat < 128 then none
  else
    let is_upper := if lowercase then false else U.isUppercase ch
    if ch ∈ ['Ç', 'Ć', 'Ĉ', 'Ċ', 'Č', 'ç', 'ć', 'ĉ', 'ċ', 'č'] then
      some (case_adjust ['c'] is_upper)
    else if ch ∈ ['Ð', 'Ď', 'Đ', 'ð', 'ď', 'đ', 'Д', 'д'] then
      some (case_adjust ['d'] is_upper)
    else if ch ∈ ['Ə', 'ə', '€', 'È', 'É', 'Ê', 'Ë', 'Ē', 'Ĕ', 'Ė', 'Ę', 'Ě', 'è', 'é', 'ê',
        'ë', 'ē', 'ĕ', 'ė', 'ę', 'ě', 'Е', 'е', 'Ё', 'ё', 'Э', 'э'] then
      some (case_adjust ['e'] is_upper)
    else if ch ∈ ['Ì', 'Í', 'Î', 'Ï', 'Ĩ', 'Ī', 'Ĭ', 'Į', 'İ', 'ì', 'í', 'î', 'ï', 'ĩ', 'ī',
        'ĭ', 'į', 'ı', 'И', 'и', 'І', 'і'] then
      some (case_adjust ['i'] is_upper)
    else if ch ∈ ['Ñ', 'Ń', 'Ņ', 'Ň', 'ñ', 'ń', 'ņ', 'ň', 'Н', 'н'] then
      some (case_adjust ['n'] is_upper)
    else if ch ∈ ['∂', 'Ò', 'Ó', 'Ô', 'Õ', 'Ö', 'Ø', 'Ō', 'Ŏ', 'Ő', 'ò', 'ó', 'ô', 'õ', 'ö',
        'ø', 'ō', 'ŏ', 'ő', 'О', 'о'] then
      some (case_adjust ['o'] is_upper)
    else if ch ∈ ['Ù', 'Ú', 'Û', 'Ü', 'Ũ', 'Ū', 'Ŭ', 'Ů', 'Ű', 'Ų', 'ù', 'ú', 'û', 'ü', 'ũ',
        'ū', 'ŭ', 'ů', 'ű', 'ų', 'У', 'у'] then
      some (case_adjust ['u'] is_upper)
    else if ch ∈ ['Ý', 'Ÿ', 'ý', 'ÿ', 'Й', 'й', 'Ы', 'ы'] then
      some (case_adjust ['y'] is_upper)
    else if ch ∈ ['Ł', 'ł', 'Л', 'л'] then
      some (case_adjust ['l'] is_upper)
    else if ch ∈ ['Ž', 'ž', 'Ź', 'ź', 'Ż', 'ż', 'З', 'з'] then
      some (case_adjust ['z'] is_upper)
    else if ch ∈ ['∫', 'Š', 'š', 'Ś', 'ś', 'С', 'с'] then
      some (case_adjust ['s'] is_upper)
    else if ch ∈ ['Þ', 'þ'] then
      some (case_adjust ['t', 'h'] is_upper)
    else if ch ∈ ['Æ', 'æ'] then
      some (case_adjust ['a', 'e'] is_upper)
    else if ch ∈ ['Œ', 'œ'] then
      some (case_adjust ['o', 'e'] is_upper)
    else if ch = 'ß' then
      some ['s', 's']
    else if ch ∈ ['À', 'Á', 'Â', 'Ã', 'Ä', 'Å', 'Ā', 'Ă', 'Ą', 'à', 'á', 'â', 'ã', 'ä', 'å',
        'ā', 'ă', 'ą', 'А', 'а'] then
      some (case_adjust ['a'] is_upper)
    else if ch ∈ ['β', 'Б', 'б'] then
      some (case_adjust ['b'] is_upper)
    else if ch ∈ ['В', 'в'] then
      some (case_adjust ['v'] is_upper)
    else if ch ∈ ['Г', 'г', 'Ґ', 'ґ'] then
      some (case_adjust ['g'] is_upper)
    else if ch ∈ ['Ж', 'ж'] then
      some (case_adjust ['z', 'h'] is_upper)
    else if ch ∈ ['К', 'к'] then
      some (case_adjust ['k'] is_upper)
    else if ch ∈ ['М', 'м'] then
      some (case_adjust ['m'] is_upper)
    else if ch ∈ ['П', 'п'] then
      some (case_adjust ['p'] is_upper)
    else if ch ∈ ['Р', 'р'] then
      some (case_adjust ['r'] is_upper)
    else if ch ∈ ['Т', 'т'] then
      some (case_adjust ['t'] is_upper)
    else if ch ∈ ['Ф', 'ф'] then
      some (case_adjust ['f'] is_upper)
    else if ch ∈ ['Х', 'х'] then
      some (case_adjust ['h'] is_upper)
    else if ch ∈ ['Ц', 'ц'] then
      some (case_adjust ['t', 's'] is_upper)
    else if ch ∈ ['Ч', 'ч'] then
      some (case_adjust ['c', 'h'] is_upper)
    else if ch ∈ ['Ш', 'ш'] then
      some (case_adjust ['s', 'h'] is_upper)
    else if ch ∈ ['Щ', 'щ'] then
      some (case_adjust ['s', 'h', 'c', 'h'] is_upper)
    else if ch ∈ ['Ю', 'ю'] then
      some (case_adjust ['y', 'u'] is_upper)
    else if ch ∈ ['Я', 'я'] then
      some (case_adjust ['y', 'a'] is_upper)
    else if ch ∈ ['Є', 'є'] then
      some (case_adjust ['y', 'e'] is_upper)
    else if ch ∈ ['Ї', 'ї'] then
      some (case_adjust ['y', 'i'] is_upper)
    else if ch ∈ ['Ъ', 'ъ', 'Ь', 'ь'] then
      some []
    else none

/-! # src/options.rs -/

/-- `SlugOptions` from `src/options.rs`.  `fallback` is a `&'static str`,
modelled as a char list. -/
structure SlugOptions where
  separator : Char
  lowercase : Bool
  max_len_bytes : Nat
  allow_unicode : Bool
  keep_underscore : Bool
  avoid_leading_dot : Bool
  fallback : List Char
  deriving DecidableEq

/-- `SlugOptions::default()`. -/
def defaultOptions : SlugOptions :=
  { separator := '-'
    lowercase := true
    max_len_bytes := 255
    allow_unicode := false
    keep_underscore := true
    avoid_leading_dot := true
    fallback := ['f', 'i', 'l', 'e'] }

/-! # src/lib.rs helpers -/

/-- `sanitize_separator` from `src/lib.rs`: allow-list `{-, _, +, ~}`,
anything else becomes `-`. -/
def sanitize_separator (sep : Char) : Char :=
  if sep = '-' ∨ sep = '_' ∨ sep = '+' ∨ sep = '~' then sep else '-'

/-- `is_separatorish` from `src/lib.rs`. -/
def is_separatorish (ch : Char) : Bool :=
  is_rust_whitespace ch ||
    decide (ch = '-' ∨ ch = '.' ∨ ch = ',' ∨ ch = ';' ∨ ch = ':' ∨ ch = '+' ∨ ch = '=')

/-- `is_forbidden_filename_char` from `src/lib.rs`. -/
def is_forbidden_filename_char (ch : Char) : Bool :=
  decide (ch = '<' ∨ ch = '>' ∨ ch = ':' ∨ ch = '"' ∨ ch = '/' ∨ ch = '\\' ∨ ch = '|' ∨
      ch = '?' ∨ ch = '*') ||
    decide (ch = '\x00') || is_rust_control ch

/-- `trim_end_seps_dots_spaces` from `src/lib.rs`: repeatedly pop the last
char while it is the separator, `.` or space. -/
def trim_end_seps_dots_spaces (sep : Char) (s : List Char) : List Char :=
  (s.reverse.dropWhile (fun c => c == sep || c == '.' || c == ' ')).reverse

/-- `trim_start_seps` from `src/lib.rs`: repeatedly drop the first char while
it equals the separator. -/
def trim_start_seps (sep : Char) (s : List Char) : List Char :=
  s.dropWhile (fun c => c == sep)

/-- `ascii_upper` from `src/lib.rs`. -/
def ascii_upper (s : List Char) : List Char :=
  s.map to_ascii_uppercase

/-- `is_1_to_9_suffix` from `src/lib.rs`: the slice has byte length 1 and that
byte is `1`..`9` (a single char of UTF-8 size 1 in that range). -/
def is_1_to_9_suffix (s : List Char) : Bool :=
  match s with
  | [c] => decide (49 ≤ c.toNat) && decide (c.toNat ≤ 57)
  | _ => false

/-- `is_windows_reserved_name` from `src/lib.rs`. -/
def is_windows_reserved_name (name : List Char) : Bool :=
  let upper := ascii_upper name
  decide (upper = ['C', 'O', 'N'] ∨ upper = ['P', 'R', 'N'] ∨ upper = ['A', 'U', 'X'] ∨
      upper = ['N', 'U', 'L']) ||
    (decide (upper.take 3 = ['C', 'O', 'M']) && is_1_to_9_suffix (upper.drop 3)) ||
    (decide (upper.take 3 = ['L', 'P', 'T']) && is_1_to_9_suffix (upper.drop 3))

/-- The mutable state of the main loop of `slugify_with`: the output buffer
and the `last_was_sep` flag. -/
structure LoopState where
  out : List Char
  lastSep : Bool
  deriving DecidableEq

/-- `push_sep` from `src/lib.rs`: append the separator only when the output
is non-empty and the previous emission was not already a separator. -/
def push_sep (sep : Char) (st : LoopState) : LoopState :=
  if st.lastSep = false ∧ st.out ≠ [] then ⟨st.out ++ [sep], true⟩ else st

/-- `push_ascii_alnum` from `src/lib.rs`. -/
def push_ascii_alnum (out : List Char) (ch : Char) (lowercase : Bool) : List Char :=
  if lowercase then out ++ [to_ascii_lowercase ch] else out ++ [ch]

/-- One step of the inner loop over a transliteration substitution string
(`for t in s.chars()` in `src/lib.rs`, with the `pushed_any` flag). -/
def translit_step (opt : SlugOptions) (sep : Char) (acc : LoopState × Bool) (t : Char) :
    LoopState × Bool :=
  let st := acc.1
  if is_ascii_alphanumeric t then
    (⟨push_ascii_alnum st.out t opt.lowercase, false⟩, true)
  else if t = '_' ∧ opt.keep_underscore then
    (⟨st.out ++ ['_'], false⟩, true)
  else if is_separatorish t then
    (push_sep sep st, acc.2)
  else
    (push_sep sep st, acc.2)

/-- The per-character decision procedure of `slugify_with` (the body of the
main `for ch in input.chars()` loop in `src/lib.rs`).  `fu` and `ft` are the
`unicode` and `transliterate` cargo features. -/
def processChar (U : UnicodeTables) (fu ft : Bool) (opt : SlugOptions) (sep : Char)
    (st : LoopState) (ch : Char) : LoopState :=
  if is_forbidden_filename_char ch then push_sep sep st
  else if is_ascii_alphanumeric ch then ⟨push_ascii_alnum st.out ch opt.lowercase, false⟩
  else if ch = '_' ∧ opt.keep_underscore then ⟨st.out ++ ['_'], false⟩
  else if fu && (opt.allow_unicode && U.isAlphanumeric ch) then
    if opt.lowercase then ⟨st.out ++ U.toLowerChars ch, false⟩ else ⟨st.out ++ [ch], false⟩
  else
    match (if ft then transliterate U ch opt.lowercase else none) with
    | some s =>
      if s = [] then st
      else
        let r := s.foldl (translit_step opt sep) (st, false)
        if r.2 then r.1
        else if is_separatorish ch then push_sep sep r.1 else push_sep sep r.1
    | none =>
      if is_separatorish ch then push_sep sep st else push_sep sep st

/-- The full main loop of `slugify_with`; `last_was_sep` is seeded `true` so
leading separators are suppressed. -/
def runLoop (U : UnicodeTables) (fu ft : Bool) (opt : SlugOptions) (sep : Char)
    (input : List Char) : LoopState :=
  input.foldl (processChar U fu ft opt sep) ⟨[], true⟩

/-- The empty/`.`/`..` test of `src/lib.rs` lines 138 and 159. -/
def emptyOrDots (l : List Char) : Bool :=
  decide (l = [] ∨ l = ['.'] ∨ l = ['.', '.'])

/-- Replace an empty/`.`/`..` result with the fallback (lines 138-141 and
159-162 of `src/lib.rs`). -/
def applyFallback (fb l : List Char) : List Char :=
  if emptyOrDots l then fb else l

/-- `truncateBytes.go`: pop trailing chars (whole code points) while the
UTF-8 byte length exceeds the cap; the fuel argument bounds the number of
pops by the length of the list. -/
def truncateGo (maxB : Nat) : Nat → List Char → List Char
  | 0, l => l
  | n + 1, l => if utf8Len l ≤ maxB then l else truncateGo maxB n l.dropLast

/-- The `while out.len() > opt.max_len_bytes { out.pop(); }` loop of
`src/lib.rs` lines 154-156. -/
def truncateBytes (maxB : Nat) (l : List Char) : List Char :=
  truncateGo maxB l.length l

/-- Everything `slugify_with` does before the byte-length cap: the main loop,
the first trim pass, the first fallback substitution, the hidden-file fix and
the Windows reserved-name fix (lines 53-151 of `src/lib.rs`).  `sep` is the
already-sanitized separator; `opt.separator` itself is not consulted. -/
def slugPreTrunc (U : UnicodeTables) (fu ft : Bool) (sep : Char) (opt : SlugOptions)
    (input : List Char) : List Char :=
  let out0 := (runLoop U fu ft opt sep input).out
  let out1 := trim_start_seps sep (trim_end_seps_dots_spaces sep out0)
  let out2 := applyFallback opt.fallback out1
  let out3 := if opt.avoid_leading_dot && (out2.head? == some '.') then '_' :: out2 else out2
  if is_windows_reserved_name out3 then '_' :: out3 else out3

/-- `slugify_with` from `src/lib.rs`. -/
def slugify_with (U : UnicodeTables) (fu ft : Bool) (input : List Char) (opt : SlugOptions) :
    List Char :=
  let sep := sanitize_separator opt.separator
  applyFallback opt.fallback
    (trim_end_seps_dots_spaces sep (truncateBytes opt.max_len_bytes (slugPreTrunc U fu ft sep opt input)))

/-- `slugify` from `src/lib.rs`: `slugify_with` with default options. -/
def slugify (U : UnicodeTables) (fu ft : Bool) (input : List Char) : List Char :=
  slugify_with U fu ft input defaultOptions

/-- A small concrete instance of `UnicodeTables` (ASCII lowercase letters and
digits only), used to instantiate witnesses at concrete inputs. -/
def witTables : UnicodeTables where
  isAlphanumeric c := (decide (97 ≤ c.toNat) && decide (c.toNat ≤ 122)) ||
    (decide (48 ≤ c.toNat) && decide (c.toNat ≤ 57))
  toLowerChars c := [c]
  isUppercase _ := false
  alnum_not_special := by
    intro c h
    simp only [Bool.or_eq_true, Bool.and_eq_true, decide_eq_true_eq] at h
    refine ⟨?_, ?_, ?_, ?_, ?_, ?_⟩ <;> rintro rfl <;> revert h <;> decide
  toLower_not_special := by
    intro c c₂ h hmem
    simp only [List.mem_singleton] at hmem
    subst hmem
    simp only [Bool.or_eq_true, Bool.and_eq_true, decide_eq_true_eq] at h
    refine ⟨?_, ?_, ?_, ?_, ?_, ?_⟩ <;> rintro rfl <;> revert h <;> decide
  toLower_nonnil := by intro c _; simp

/-! # Character-class lemmas -/

instance (c : Char) : Decidable (notSpecial c) := by
  unfold notSpecial; infer_instance

/-- No adjacent occurrences of the separator, as an executable predicate. -/
def noAdjSep (sep : Char) : List Char → Bool
  | a :: b :: rest => (!(a == sep && b == sep)) && noAdjSep sep (b :: rest)
  | _ => true

/-- The relation underlying `noAdjSep`. -/
def SepRel (sep : Char) (a b : Char) : Prop := ¬(a = sep ∧ b = sep)

instance (sep : Char) : DecidableRel (SepRel sep) := by
  unfold SepRel; infer_instance

theorem noAdjSep_iff_chain (sep : Char) (l : List Char) :
    noAdjSep sep l = true ↔ List.Chain' (SepRel sep) l := by
  induction l with
  | nil => simp [noAdjSep]
  | cons a t ih =>
    cases t with
    | nil => simp [noAdjSep, SepRel]
    | cons b t₂ =>
      rw [List.chain'_cons, ← ih]
      simp [noAdjSep, SepRel]
      tauto

theorem chainPref {R : Char → Char → Prop} {l₂ l₁ : List Char} (h : List.Chain' R l₂)
    (hp : l₁ <+: l₂) : List.Chain' R l₁ :=
  List.Chain'.prefix h hp

theorem chainSuf {R : Char → Char → Prop} {l₂ l₁ : List Char} (h : List.Chain' R l₂)
    (hs : l₁ <:+ l₂) : List.Chain' R l₁ :=
  List.Chain'.suffix h hs

theorem sanitize_allowlisted (s : Char) :
    sanitize_separator s = '-' ∨ sanitize_separator s = '_' ∨
      sanitize_separator s = '+' ∨ sanitize_separator s = '~' := by
  unfold sanitize_separator
  split
  · assumption
  · left; rfl

/-- Shape of a sanitized separator used throughout the invariant proofs. -/
def Allowed (sep : Char) : Prop :=
  sep = '-' ∨ sep = '_' ∨ sep = '+' ∨ sep = '~'

theorem allowed_sanitize (s : Char) : Allowed (sanitize_separator s) :=
  sanitize_allowlisted s

theorem notSpecial_ne_sep {sep c : Char} (hAll : Allowed sep) (h : notSpecial c) : c ≠ sep := by
  rcases hAll with rfl | rfl | rfl | rfl
  · exact h.1
  · exact h.2.1
  · exact h.2.2.1
  · exact h.2.2.2.1

theorem sep_ne_dot {sep : Char} (hAll : Allowed sep) : sep ≠ '.' := by
  rcases hAll with rfl | rfl | rfl | rfl <;> decide

theorem sep_ne_space {sep : Char} (hAll : Allowed sep) : sep ≠ ' ' := by
  rcases hAll with rfl | rfl | rfl | rfl <;> decide

theorem alnum_ranges {c : Char} (h : is_ascii_alphanumeric c = true) :
    (48 ≤ c.toNat ∧ c.toNat ≤ 57) ∨ (65 ≤ c.toNat ∧ c.toNat ≤ 90) ∨
      (97 ≤ c.toNat ∧ c.toNat ≤ 122) := by
  unfold is_ascii_alphanumeric at h
  simp only [Bool.or_eq_true, Bool.and_eq_true, decide_eq_true_eq] at h
  tauto

theorem alnum_notSpecial {c : Char} (h : is_ascii_alphanumeric c = true) : notSpecial c := by
  refine ⟨?_, ?_, ?_, ?_, ?_, ?_⟩ <;> rintro rfl <;> revert h <;> decide

theorem alnum_toNat_le {c : Char} (h : is_ascii_alphanumeric c = true) : c.toNat ≤ 127 := by
  rcases alnum_ranges h with ⟨_, h₂⟩ | ⟨_, h₂⟩ | ⟨_, h₂⟩ <;> omega

/-- Properties of `Char.ofNat (n + 32)` for an uppercase-letter code `n`. -/
theorem ofNat_lower_props :
    ∀ n : Nat, 65 ≤ n → n ≤ 90 →
      is_ascii_alphanumeric (Char.ofNat (n + 32)) = true ∧
        to_ascii_lowercase (Char.ofNat (n + 32)) = Char.ofNat (n + 32) ∧
        notSpecial (Char.ofNat (n + 32)) ∧ (Char.ofNat (n + 32)).toNat ≤ 127 := by
  intro n h₁ h₂
  interval_cases n <;> exact ⟨by decide, by decide, by decide, by decide⟩

theorem lower_props {c : Char} (h : is_ascii_alphanumeric c = true) :
    is_ascii_alphanumeric (to_ascii_lowercase c) = true ∧
      to_ascii_lowercase (to_ascii_lowercase c) = to_ascii_lowercase c ∧
      notSpecial (to_ascii_lowercase c) ∧ (to_ascii_lowercase c).toNat ≤ 127 := by
  by_cases hu : 65 ≤ c.toNat ∧ c.toNat ≤ 90
  · have heq : to_ascii_lowercase c = Char.ofNat (c.toNat + 32) := by
      unfold to_ascii_lowercase
      rw [if_pos hu]
    rw [heq]
    exact ofNat_lower_props c.toNat hu.1 hu.2
  · have heq : to_ascii_lowercase c = c := by
      unfold to_ascii_lowercase
      rw [if_neg hu]
    rw [heq]
    refine ⟨h, ?_, alnum_notSpecial h, alnum_toNat_le h⟩
    unfold to_ascii_lowercase
    rw [if_neg hu]

theorem alnum_not_forbidden {c : Char} (h : is_ascii_alphanumeric c = true) :
    is_forbidden_filename_char c = false := by
  have hr := alnum_ranges h
  have h₁ : ¬(c = '<' ∨ c = '>' ∨ c = ':' ∨ c = '"' ∨ c = '/' ∨ c = '\\' ∨ c = '|' ∨
      c = '?' ∨ c = '*') := by
    rintro (rfl | rfl | rfl | rfl | rfl | rfl | rfl | rfl | rfl) <;> revert h <;> decide
  have h₂ : ¬(c = '\x00') := by rintro rfl; revert h; decide
  unfold is_forbidden_filename_char is_rust_control
  simp only [Bool.or_eq_false_iff, Bool.and_eq_false_iff, decide_eq_false_iff_not]
  refine ⟨⟨h₁, h₂⟩, ?_, ?_⟩ <;> omega

/-- The character actually appended by `push_ascii_alnum` for an ASCII
alphanumeric input is itself ASCII alphanumeric and not special. -/
theorem pushed_alnum_props {c : Char} (lowercase : Bool)
    (h : is_ascii_alphanumeric c = true) :
    is_ascii_alphanumeric (if lowercase then to_ascii_lowercase c else c) = true ∧
      notSpecial (if lowercase then to_ascii_lowercase c else c) := by
  cases lowercase
  · exact ⟨h, alnum_notSpecial h⟩
  · exact ⟨(lower_props h).1, (lower_props h).2.2.1⟩

/-! # List utilities for the trimming and truncation passes -/

/-- The trailing-trim predicate of `trim_end_seps_dots_spaces`. -/
def trimP (sep : Char) (c : Char) : Bool := c == sep || c == '.' || c == ' '

theorem trimEnd_eq_reverse (sep : Char) (l : List Char) :
    trim_end_seps_dots_spaces sep l = (l.reverse.dropWhile (trimP sep)).reverse := rfl

theorem dropWhile_head_false {α : Type} (p : α → Bool) (l : List α) {c : α}
    (h : (l.dropWhile p).head? = some c) : p c = false := by
  induction l with
  | nil => simp [List.dropWhile] at h
  | cons a t ih =>
    rw [List.dropWhile_cons] at h
    split at h
    · exact ih h
    · rename_i hpa
      simp only [List.head?_cons, Option.some.injEq] at h
      subst h
      simpa using hpa

theorem dropWhile_eq_self_of_head {α : Type} (p : α → Bool) (l : List α)
    (h : ∀ c, l.head? = some c → p c = false) : l.dropWhile p = l := by
  cases l with
  | nil => rfl
  | cons a t =>
    rw [List.dropWhile_cons, if_neg]
    simp [h a rfl]

theorem trimEnd_pref (sep : Char) (l : List Char) :
    trim_end_seps_dots_spaces sep l <+: l := by
  rw [trimEnd_eq_reverse]
  have h₁ : l.reverse.dropWhile (trimP sep) <:+ l.reverse := List.dropWhile_suffix _
  have h₂ := List.reverse_prefix.mpr h₁
  simpa using h₂

theorem trimStart_suf (sep : Char) (l : List Char) :
    trim_start_seps sep l <:+ l :=
  List.dropWhile_suffix _

theorem trimEnd_getLast (sep : Char) (l : List Char) {c : Char}
    (h : (trim_end_seps_dots_spaces sep l).getLast? = some c) :
    c ≠ sep ∧ c ≠ '.' ∧ c ≠ ' ' := by
  rw [trimEnd_eq_reverse, List.getLast?_reverse] at h
  have := dropWhile_head_false (trimP sep) l.reverse h
  unfold trimP at this
  simp only [Bool.or_eq_false_iff, beq_eq_false_iff_ne, ne_eq] at this
  exact ⟨this.1.1, this.1.2, this.2⟩

theorem trimEnd_eq_self (sep : Char) (l : List Char)
    (h : ∀ c, l.getLast? = some c → trimP sep c = false) :
    trim_end_seps_dots_spaces sep l = l := by
  rw [trimEnd_eq_reverse, dropWhile_eq_self_of_head, List.reverse_reverse]
  intro c hc
  rw [List.head?_reverse] at hc
  exact h c hc

theorem trimStart_head (sep : Char) (l : List Char) {c : Char}
    (h : (trim_start_seps sep l).head? = some c) : c ≠ sep := by
  have := dropWhile_head_false _ l h
  simpa using this

/-- A nonempty suffix has the same last element. -/
theorem suffix_getLast {l₁ l₂ : List Char} (h : l₁ <:+ l₂) (hne : l₁ ≠ []) :
    l₂.getLast? = l₁.getLast? := by
  obtain ⟨t, rfl⟩ := h
  rw [List.getLast?_append]
  cases hl : l₁.getLast? with
  | none => exact absurd (List.getLast?_eq_none_iff.mp hl) hne
  | some c => rfl

/-- A nonempty prefix has the same head. -/
theorem pref_head {l₁ l₂ : List Char} (h : l₁ <+: l₂) (hne : l₁ ≠ []) :
    l₂.head? = l₁.head? := by
  obtain ⟨t, rfl⟩ := h
  rw [List.head?_append]
  cases hl : l₁.head? with
  | none => exact absurd (List.head?_eq_none_iff.mp hl) hne
  | some c => rfl

theorem utf8Len_nil : utf8Len [] = 0 := rfl

theorem utf8Len_append (l₁ l₂ : List Char) :
    utf8Len (l₁ ++ l₂) = utf8Len l₁ + utf8Len l₂ := by
  unfold utf8Len
  rw [List.map_append, List.sum_append]

theorem utf8Len_mono {l₁ l₂ : List Char} (h : l₁.Sublist l₂) :
    utf8Len l₁ ≤ utf8Len l₂ := by
  unfold utf8Len
  exact List.Sublist.sum_le_sum (List.Sublist.map _ h) (by intro a _; exact Nat.zero_le a)

theorem utf8Len_eq_length {l : List Char} (h : ∀ c ∈ l, c.utf8Size = 1) :
    utf8Len l = l.length := by
  induction l with
  | nil => rfl
  | cons a t ih =>
    have ha := h a (List.mem_cons_self a t)
    unfold utf8Len at *
    simp only [List.map_cons, List.sum_cons, List.length_cons, ha]
    rw [ih (fun c hc => h c (List.mem_cons_of_mem a hc))]
    omega

theorem utf8Size_one {c : Char} (h : c.toNat ≤ 127) : c.utf8Size = 1 := by
  unfold Char.utf8Size
  rw [if_pos]
  change c.val.toBitVec.toNat ≤ _ at h
  simp only [UInt32.le_def, BitVec.le_def]
  exact h

theorem truncateGo_le (maxB : Nat) :
    ∀ (n : Nat) (l : List Char), l.length ≤ n → utf8Len (truncateGo maxB n l) ≤ maxB := by
  intro n
  induction n with
  | zero =>
    intro l hl
    have : l = [] := List.length_eq_zero.mp (Nat.le_zero.mp hl)
    subst this
    simp [truncateGo, utf8Len_nil]
  | succ n ih =>
    intro l hl
    unfold truncateGo
    split
    · assumption
    · exact ih l.dropLast (by rw [List.length_dropLast]; omega)

theorem truncate_le (maxB : Nat) (l : List Char) :
    utf8Len (truncateBytes maxB l) ≤ maxB :=
  truncateGo_le maxB l.length l le_rfl

theorem truncateGo_pref (maxB : Nat) :
    ∀ (n : Nat) (l : List Char), truncateGo maxB n l <+: l := by
  intro n
  induction n with
  | zero => intro l; exact List.prefix_refl l
  | succ n ih =>
    intro l
    unfold truncateGo
    split
    · exact List.prefix_refl l
    · exact (ih l.dropLast).trans (l.dropLast_prefix)

theorem truncate_pref (maxB : Nat) (l : List Char) :
    truncateBytes maxB l <+: l :=
  truncateGo_pref maxB l.length l

theorem truncate_eq_self {maxB : Nat} {l : List Char} (h : utf8Len l ≤ maxB) :
    truncateBytes maxB l = l := by
  unfold truncateBytes
  cases hl : l.length with
  | zero => rfl
  | succ n => unfold truncateGo; rw [if_pos h]

theorem truncateGo_all_one (maxB : Nat) :
    ∀ (n : Nat) (l : List Char), (∀ c ∈ l, c.utf8Size = 1) → l.length ≤ n →
      truncateGo maxB n l = l.take (min maxB l.length) := by
  intro n
  induction n with
  | zero =>
    intro l h1 hl
    have : l = [] := List.length_eq_zero.mp (Nat.le_zero.mp hl)
    subst this
    simp [truncateGo]
  | succ n ih =>
    intro l h1 hl
    unfold truncateGo
    rw [utf8Len_eq_length h1]
    split
    · rw [min_eq_right (by omega), List.take_length]
    · rename_i hgt
      have hd1 : ∀ c ∈ l.dropLast, c.utf8Size = 1 := fun c hc =>
        h1 c (List.dropLast_sublist l |>.mem hc)
      rw [ih l.dropLast hd1 (by rw [List.length_dropLast]; omega)]
      rw [List.dropLast_eq_take, List.take_take, List.length_take]
      congr 1
      omega

theorem truncate_all_one_length {maxB : Nat} {l : List Char}
    (h1 : ∀ c ∈ l, c.utf8Size = 1) (hgt : maxB < utf8Len l) :
    (truncateBytes maxB l).length = maxB := by
  unfold truncateBytes
  rw [truncateGo_all_one maxB l.length l h1 le_rfl, List.length_take]
  rw [utf8Len_eq_length h1] at hgt
  omega

/-! # The main-loop invariant -/

/-- Invariant of the main loop: no two adjacent separators in the buffer,
the `last_was_sep` flag is set whenever the buffer ends with a separator,
and no dot or space ever enters the buffer. -/
def StInv (sep : Char) (st : LoopState) : Prop :=
  List.Chain' (SepRel sep) st.out ∧
    (st.out.getLast? = some sep → st.lastSep = true) ∧
    '.' ∉ st.out ∧ ' ' ∉ st.out

theorem StInv_init (sep : Char) : StInv sep ⟨[], true⟩ := by
  refine ⟨List.chain'_nil, ?_, ?_, ?_⟩ <;> simp

theorem chain_snoc {sep : Char} {l : List Char} {c : Char}
    (hc : List.Chain' (SepRel sep) l)
    (h : ∀ x, l.getLast? = some x → SepRel sep x c) :
    List.Chain' (SepRel sep) (l ++ [c]) := by
  rw [List.chain'_append]
  refine ⟨hc, List.chain'_singleton _, ?_⟩
  intro x hx y hy
  simp only [List.head?_cons, Option.mem_def, Option.some.injEq] at hy
  subst hy
  exact h x hx

theorem chain_of_all_ne {sep : Char} {L : List Char} (hL : ∀ x ∈ L, x ≠ sep) :
    List.Chain' (SepRel sep) L := by
  induction L with
  | nil => exact List.chain'_nil
  | cons a t ih =>
    cases t with
    | nil => exact List.chain'_singleton a
    | cons b t₂ =>
      rw [List.chain'_cons]
      refine ⟨fun hb => (hL b (by simp)) hb.2, ?_⟩
      exact ih (fun x hx => hL x (List.mem_cons_of_mem a hx))

theorem chain_append_list {sep : Char} {l L : List Char}
    (hc : List.Chain' (SepRel sep) l) (hL : ∀ x ∈ L, x ≠ sep) :
    List.Chain' (SepRel sep) (l ++ L) := by
  rw [List.chain'_append]
  refine ⟨hc, chain_of_all_ne hL, ?_⟩
  intro x _ y hy
  have hyL : y ∈ L := List.mem_of_mem_head? hy
  exact fun hp => (hL y hyL) hp.2

theorem push_sep_StInv {sep : Char} (hAll : Allowed sep) {st : LoopState}
    (h : StInv sep st) : StInv sep (push_sep sep st) := by
  unfold push_sep
  split
  · rename_i hcond
    obtain ⟨hls, _⟩ := hcond
    obtain ⟨h1, h2, h3, h4⟩ := h
    refine ⟨?_, ?_, ?_, ?_⟩
    · refine chain_snoc h1 ?_
      intro x hx hp
      have := h2 (by rw [hx, hp.1])
      rw [this] at hls
      exact absurd hls (by simp)
    · intro _; rfl
    · simp only [List.mem_append, List.mem_singleton]
      rintro (hm | rfl)
      · exact h3 hm
      · exact (sep_ne_dot hAll) rfl
    · simp only [List.mem_append, List.mem_singleton]
      rintro (hm | rfl)
      · exact h4 hm
      · exact (sep_ne_space hAll) rfl
  · exact h

theorem push_one_StInv {sep c : Char} (hc : c ≠ sep) (hcd : c ≠ '.') (hcs : c ≠ ' ')
    {st : LoopState} (h : StInv sep st) : StInv sep ⟨st.out ++ [c], false⟩ := by
  obtain ⟨h1, h2, h3, h4⟩ := h
  refine ⟨chain_snoc h1 (fun x _ hp => hc hp.2), ?_, ?_, ?_⟩
  · intro hcc
    rw [List.getLast?_concat] at hcc
    simp only [Option.some.injEq] at hcc
    exact absurd hcc hc
  · simp only [List.mem_append, List.mem_singleton]
    rintro (hm | rfl)
    · exact h3 hm
    · exact hcd rfl
  · simp only [List.mem_append, List.mem_singleton]
    rintro (hm | rfl)
    · exact h4 hm
    · exact hcs rfl

theorem push_list_StInv {sep : Char} {L : List Char}
    (hL : ∀ x ∈ L, x ≠ sep ∧ x ≠ '.' ∧ x ≠ ' ') (hne : L ≠ [])
    {st : LoopState} (h : StInv sep st) : StInv sep ⟨st.out ++ L, false⟩ := by
  obtain ⟨h1, h2, h3, h4⟩ := h
  refine ⟨chain_append_list h1 (fun x hx => (hL x hx).1), ?_, ?_, ?_⟩
  · intro hlast
    rw [List.getLast?_append] at hlast
    cases hL2 : L.getLast? with
    | none => exact absurd (List.getLast?_eq_none_iff.mp hL2) hne
    | some x =>
      rw [hL2] at hlast
      simp only [Option.or_some, Option.some.injEq] at hlast
      subst hlast
      have hxL : x ∈ L := List.mem_of_mem_getLast? hL2
      exact absurd rfl (hL x hxL).1
  · simp only [List.mem_append]
    rintro (hm | hm)
    · exact h3 hm
    · exact (hL _ hm).2.1 rfl
  · simp only [List.mem_append]
    rintro (hm | hm)
    · exact h4 hm
    · exact (hL _ hm).2.2 rfl

theorem push_alnum_StInv {sep : Char} (hAll : Allowed sep) {c : Char}
    (hc : is_ascii_alphanumeric c = true) (lowercase : Bool) {st : LoopState}
    (h : StInv sep st) : StInv sep ⟨push_ascii_alnum st.out c lowercase, false⟩ := by
  unfold push_ascii_alnum
  split
  · have hp := (lower_props hc).2.2.1
    exact push_one_StInv (notSpecial_ne_sep hAll hp) hp.2.2.2.2.1 hp.2.2.2.2.2 h
  · have hp := alnum_notSpecial hc
    exact push_one_StInv (notSpecial_ne_sep hAll hp) hp.2.2.2.2.1 hp.2.2.2.2.2 h

theorem push_underscore_StInv {sep : Char} (hne : sep ≠ '_') {st : LoopState}
    (h : StInv sep st) : StInv sep ⟨st.out ++ ['_'], false⟩ :=
  push_one_StInv (Ne.symm hne) (by decide) (by decide) h

theorem translit_fold_StInv {opt : SlugOptions} {sep : Char} (hAll : Allowed sep)
    (hund : opt.keep_underscore = true → sep ≠ '_') :
    ∀ (s : List Char) (acc : LoopState × Bool), StInv sep acc.1 →
      StInv sep (s.foldl (translit_step opt sep) acc).1 := by
  intro s
  induction s with
  | nil => intro acc h; exact h
  | cons t s₂ ih =>
    intro acc h
    rw [List.foldl_cons]
    apply ih
    unfold translit_step
    split
    · rename_i ht
      exact push_alnum_StInv hAll ht opt.lowercase h
    · split
      · rename_i ht
        exact push_underscore_StInv (hund ht.2) h
      · split
        · exact push_sep_StInv hAll h
        · exact push_sep_StInv hAll h

theorem processChar_StInv {U : UnicodeTables} {fu ft : Bool} {opt : SlugOptions} {sep : Char}
    (hAll : Allowed sep) (hund : opt.keep_underscore = true → sep ≠ '_')
    (st : LoopState) (ch : Char) (h : StInv sep st) :
    StInv sep (processChar U fu ft opt sep st ch) := by
  unfold processChar
  split
  · exact push_sep_StInv hAll h
  · split
    · rename_i h2
      exact push_alnum_StInv hAll h2 opt.lowercase h
    · split
      · rename_i h3
        exact push_underscore_StInv (hund h3.2) h
      · split
        · rename_i h4
          have hU : U.isAlphanumeric ch = true := by
            simp only [Bool.and_eq_true] at h4
            exact h4.2.2
          split
          · apply push_list_StInv ?_ (U.toLower_nonnil ch hU) h
            intro x hx
            have hns := U.toLower_not_special ch x hU hx
            exact ⟨notSpecial_ne_sep hAll hns, hns.2.2.2.2.1, hns.2.2.2.2.2⟩
          · have hns := U.alnum_not_special ch hU
            exact push_one_StInv (notSpecial_ne_sep hAll hns) hns.2.2.2.2.1 hns.2.2.2.2.2 h
        · dsimp only
          split
          · rename_i s _
            split
            · exact h
            · have hr := translit_fold_StInv hAll hund s (st, false) h
              split
              · exact hr
              · split
                · exact push_sep_StInv hAll hr
                · exact push_sep_StInv hAll hr
          · split
            · exact push_sep_StInv hAll h
            · exact push_sep_StInv hAll h

theorem foldl_pres {β : Type} {P : LoopState → Prop} {f : LoopState → β → LoopState}
    (hf : ∀ st a, P st → P (f st a)) :
    ∀ (l : List β) (st : LoopState), P st → P (l.foldl f st) := by
  intro l
  induction l with
  | nil => intro st h; exact h
  | cons a t ih =>
    intro st h
    rw [List.foldl_cons]
    exact ih _ (hf st a h)

theorem runLoop_StInv {U : UnicodeTables} {fu ft : Bool} {opt : SlugOptions} {sep : Char}
    (hAll : Allowed sep) (hund : opt.keep_underscore = true → sep ≠ '_')
    (input : List Char) : StInv sep (runLoop U fu ft opt sep input) :=
  foldl_pres (fun st a h => processChar_StInv hAll hund st a h) input ⟨[], true⟩ (StInv_init sep)

/-! # Post-processing stage lemmas -/

theorem trimP_false_iff (sep c : Char) :
    trimP sep c = false ↔ (c ≠ sep ∧ c ≠ '.' ∧ c ≠ ' ') := by
  unfold trimP
  simp only [Bool.or_eq_false_iff, beq_eq_false_iff_ne, ne_eq]
  tauto

theorem emptyOrDots_false_iff (l : List Char) :
    emptyOrDots l = false ↔ (l ≠ [] ∧ l ≠ ['.'] ∧ l ≠ ['.', '.']) := by
  unfold emptyOrDots
  simp only [decide_eq_false_iff_not]
  tauto

theorem cons_getLast {c : Char} {l : List Char} (h : l ≠ []) :
    (c :: l).getLast? = l.getLast? := by
  have : c :: l = [c] ++ l := rfl
  rw [this, List.getLast?_append]
  cases hl : l.getLast? with
  | none => exact absurd (List.getLast?_eq_none_iff.mp hl) h
  | some x => rfl

theorem getLast_ne_nil {c : Char} {l : List Char} (h : l.getLast? = some c) : l ≠ [] := by
  intro he
  subst he
  simp at h

theorem head_ne_nil {c : Char} {l : List Char} (h : l.head? = some c) : l ≠ [] := by
  intro he
  subst he
  simp at h

theorem reserved_nil : is_windows_reserved_name [] = false := by decide

theorem reserved_ne_nil {l : List Char} (h : is_windows_reserved_name l = true) : l ≠ [] := by
  intro he
  subst he
  exact absurd h (by decide)

theorem upper_head {l : List Char} {c : Char} (h : l.head? = some c) :
    (ascii_upper l).head? = some (to_ascii_uppercase c) := by
  unfold ascii_upper
  rw [List.head?_map, h]
  rfl

theorem take3_head {M : List Char} {a b c₃ : Char} (h : M.take 3 = [a, b, c₃]) :
    M.head? = some a := by
  cases M with
  | nil => simp at h
  | cons x t =>
    rw [List.take_succ_cons] at h
    simp only [List.cons.injEq] at h
    rw [h.1]
    rfl

/-- Any result flagged as a Windows reserved device name starts with one of
the letters of `CON`/`PRN`/`AUX`/`NUL`/`COM`/`LPT`, never with a
separator-like character. -/
theorem reserved_head {l : List Char} (h : is_windows_reserved_name l = true) {c : Char}
    (hc : l.head? = some c) : notSpecial c := by
  unfold is_windows_reserved_name at h
  simp only [Bool.or_eq_true, Bool.and_eq_true, decide_eq_true_eq] at h
  have hup := upper_head hc
  have hfirst : to_ascii_uppercase c = 'C' ∨ to_ascii_uppercase c = 'P' ∨
      to_ascii_uppercase c = 'A' ∨ to_ascii_uppercase c = 'N' ∨ to_ascii_uppercase c = 'L' := by
    rcases h with ((h | h | h | h) | ⟨h, _⟩) | ⟨h, _⟩
    · rw [h] at hup; simp at hup; tauto
    · rw [h] at hup; simp at hup; tauto
    · rw [h] at hup; simp at hup; tauto
    · rw [h] at hup; simp at hup; tauto
    · have hC := take3_head h
      rw [hC] at hup; simp at hup; tauto
    · have hL := take3_head h
      rw [hL] at hup; simp at hup; tauto
  refine ⟨?_, ?_, ?_, ?_, ?_, ?_⟩ <;> rintro rfl <;> revert hfirst <;> decide

/-- Prefixing `_` always de-reserves a name. -/
theorem reserved_cons_underscore (l : List Char) :
    is_windows_reserved_name ('_' :: l) = false := by
  unfold is_windows_reserved_name ascii_upper
  have h₁ : to_ascii_uppercase '_' = '_' := by decide
  simp only [List.map_cons, h₁, List.take_succ_cons, List.cons.injEq]
  simp

/-! Stage-generic preservation lemmas: the leading-dot fix and the reserved
name fix in `slugPreTrunc`. -/

theorem dotfix_chain {sep : Char} (hAll : Allowed sep) (ad : Bool) (l : List Char)
    (h : List.Chain' (SepRel sep) l) :
    List.Chain' (SepRel sep) (if ad && (l.head? == some '.') then '_' :: l else l) := by
  split
  · rename_i hcond
    rw [List.chain'_cons']
    refine ⟨?_, h⟩
    intro y hy
    simp only [Bool.and_eq_true, beq_iff_eq] at hcond
    rw [hcond.2] at hy
    simp only [Option.mem_def, Option.some.injEq] at hy
    subst hy
    exact fun hp => (sep_ne_dot hAll) hp.2.symm
  · exact h

theorem resfix_chain {sep : Char} (hAll : Allowed sep) (l : List Char)
    (h : List.Chain' (SepRel sep) l) :
    List.Chain' (SepRel sep) (if is_windows_reserved_name l then '_' :: l else l) := by
  split
  · rename_i hres
    rw [List.chain'_cons']
    refine ⟨?_, h⟩
    intro y hy
    have := reserved_head hres (Option.mem_def.mp hy)
    exact fun hp => (notSpecial_ne_sep hAll this) hp.2
  · exact h

theorem dotfix_ends {sep : Char} (ad : Bool) (l : List Char)
    (h : ∀ c, l.getLast? = some c → trimP sep c = false) :
    ∀ c, (if ad && (l.head? == some '.') then '_' :: l else l).getLast? = some c →
      trimP sep c = false := by
  intro c hc
  split at hc
  · rename_i hcond
    simp only [Bool.and_eq_true, beq_iff_eq] at hcond
    rw [cons_getLast (head_ne_nil hcond.2)] at hc
    exact h c hc
  · exact h c hc

theorem resfix_ends {sep : Char} (l : List Char)
    (h : ∀ c, l.getLast? = some c → trimP sep c = false) :
    ∀ c, (if is_windows_reserved_name l then '_' :: l else l).getLast? = some c →
      trimP sep c = false := by
  intro c hc
  split at hc
  · rename_i hres
    rw [cons_getLast (reserved_ne_nil hres)] at hc
    exact h c hc
  · exact h c hc

theorem dotfix_head {sep : Char} (hsep : sep ≠ '_') (ad : Bool) (l : List Char)
    (h : ∀ c, l.head? = some c → c ≠ sep ∧ c ≠ '.' ∧ c ≠ ' ') :
    ∀ c, (if ad && (l.head? == some '.') then '_' :: l else l).head? = some c →
      c ≠ sep ∧ c ≠ '.' ∧ c ≠ ' ' := by
  intro c hc
  split at hc
  · simp only [List.head?_cons, Option.some.injEq] at hc
    subst hc
    exact ⟨Ne.symm hsep, by decide, by decide⟩
  · exact h c hc

theorem resfix_head {sep : Char} (hsep : sep ≠ '_') (l : List Char)
    (h : ∀ c, l.head? = some c → c ≠ sep ∧ c ≠ '.' ∧ c ≠ ' ') :
    ∀ c, (if is_windows_reserved_name l then '_' :: l else l).head? = some c →
      c ≠ sep ∧ c ≠ '.' ∧ c ≠ ' ' := by
  intro c hc
  split at hc
  · simp only [List.head?_cons, Option.some.injEq] at hc
    subst hc
    exact ⟨Ne.symm hsep, by decide, by decide⟩
  · exact h c hc

theorem dotfix_ne_nil (ad : Bool) (l : List Char) (h : l ≠ []) :
    (if ad && (l.head? == some '.') then '_' :: l else l) ≠ [] := by
  split
  · simp
  · exact h

theorem resfix_ne_nil (l : List Char) (h : l ≠ []) :
    (if is_windows_reserved_name l then '_' :: l else l) ≠ [] := by
  split
  · simp
  · exact h

/-! # Aggregate facts about `slugPreTrunc` -/

theorem preTrunc_chain {U : UnicodeTables} {fu ft : Bool} {opt : SlugOptions} {sep : Char}
    {input : List Char} (hAll : Allowed sep)
    (hund : opt.keep_underscore = true → sep ≠ '_')
    (hfb : List.Chain' (SepRel sep) opt.fallback) :
    List.Chain' (SepRel sep) (slugPreTrunc U fu ft sep opt input) := by
  unfold slugPreTrunc
  dsimp only
  apply resfix_chain hAll
  apply dotfix_chain hAll
  unfold applyFallback
  split
  · exact hfb
  · have h0 := (@runLoop_StInv U fu ft opt sep hAll hund input).1
    exact chainSuf (chainPref h0 (trimEnd_pref sep _)) (trimStart_suf sep _)

theorem preTrunc_ends {U : UnicodeTables} {fu ft : Bool} {opt : SlugOptions} {sep : Char}
    {input : List Char}
    (hfbe : ∀ c, opt.fallback.getLast? = some c → trimP sep c = false) :
    ∀ c, (slugPreTrunc U fu ft sep opt input).getLast? = some c → trimP sep c = false := by
  unfold slugPreTrunc
  dsimp only
  apply resfix_ends
  apply dotfix_ends
  unfold applyFallback
  split
  · exact hfbe
  · intro c hc
    have hne := getLast_ne_nil hc
    rw [← suffix_getLast (trimStart_suf sep _) hne] at hc
    rw [trimP_false_iff]
    exact trimEnd_getLast sep _ hc

theorem preTrunc_head {U : UnicodeTables} {fu ft : Bool} {opt : SlugOptions} {sep : Char}
    {input : List Char} (hAll : Allowed sep) (hsep : sep ≠ '_')
    (hfbh : ∀ c, opt.fallback.head? = some c → c ≠ sep ∧ c ≠ '.' ∧ c ≠ ' ') :
    ∀ c, (slugPreTrunc U fu ft sep opt input).head? = some c →
      c ≠ sep ∧ c ≠ '.' ∧ c ≠ ' ' := by
  unfold slugPreTrunc
  dsimp only
  apply resfix_head hsep
  apply dotfix_head hsep
  unfold applyFallback
  split
  · exact hfbh
  · intro c hc
    have hinv := @runLoop_StInv U fu ft opt sep hAll (fun _ => hsep) input
    have hmem : c ∈ (runLoop U fu ft opt sep input).out :=
      (((trimStart_suf sep _).sublist.trans (trimEnd_pref sep _).sublist)).mem
        (List.mem_of_mem_head? hc)
    refine ⟨trimStart_head sep _ hc, ?_, ?_⟩
    · rintro rfl
      exact hinv.2.2.1 hmem
    · rintro rfl
      exact hinv.2.2.2 hmem

theorem preTrunc_ne_nil {U : UnicodeTables} {fu ft : Bool} {opt : SlugOptions} {sep : Char}
    {input : List Char} (hfb : opt.fallback ≠ []) :
    slugPreTrunc U fu ft sep opt input ≠ [] := by
  unfold slugPreTrunc
  dsimp only
  apply resfix_ne_nil
  apply dotfix_ne_nil
  unfold applyFallback
  split
  · exact hfb
  · rename_i hcond
    rw [Bool.not_eq_true, emptyOrDots_false_iff] at hcond
    exact hcond.1

/-! # Fully collapsing inputs

An input every character of which is whitespace or a forbidden filename
character leaves the loop state untouched, so the first fallback
substitution fires; the fallback then survives the remaining passes exactly
when it has no trailing separator/dot/space, no leading dot (when
`avoid_leading_dot` is set), is not a reserved name and fits the byte cap. -/

theorem ws_not_ascii_alnum {c : Char} (h : is_rust_whitespace c = true) :
    is_ascii_alphanumeric c = false := by
  unfold is_rust_whitespace at h
  unfold is_ascii_alphanumeric
  simp only [Bool.or_eq_true, Bool.and_eq_true, decide_eq_true_eq] at h
  simp only [Bool.or_eq_false_iff, Bool.and_eq_false_iff, decide_eq_false_iff_not]
  omega

theorem ws_ne_underscore {c : Char} (h : is_rust_whitespace c = true) : c ≠ '_' := by
  rintro rfl
  revert h
  decide

/-- No whitespace character has a transliteration mapping: every character
in the table of `src/translit.rs` is a letter or symbol. -/
theorem transliterate_ws_none (U : UnicodeTables) (lc : Bool) {ch : Char}
    (h : is_rust_whitespace ch = true) : transliterate U ch lc = none := by
  have key : ∀ L : List Char, (∀ x ∈ L, is_rust_whitespace x = false) → ch ∉ L := by
    intro L hL hm
    rw [hL ch hm] at h
    exact Bool.false_ne_true h
  have keyss : ch ≠ 'ß' := by
    rintro rfl
    revert h
    decide
  unfold transliterate
  by_cases hlt : ch.toNat < 128
  · rw [if_pos hlt]
  · rw [if_neg hlt]
    rw [if_neg (key _ (by decide)), if_neg (key _ (by decide)), if_neg (key _ (by decide)),
      if_neg (key _ (by decide)), if_neg (key _ (by decide)), if_neg (key _ (by decide)),
      if_neg (key _ (by decide)), if_neg (key _ (by decide)), if_neg (key _ (by decide)),
      if_neg (key _ (by decide)), if_neg (key _ (by decide)), if_neg (key _ (by decide)),
      if_neg (key _ (by decide)), if_neg (key _ (by decide)), if_neg keyss,
      if_neg (key _ (by decide)), if_neg (key _ (by decide)), if_neg (key _ (by decide)),
      if_neg (key _ (by decide)), if_neg (key _ (by decide)), if_neg (key _ (by decide)),
      if_neg (key _ (by decide)), if_neg (key _ (by decide)), if_neg (key _ (by decide)),
      if_neg (key _ (by decide)), if_neg (key _ (by decide)), if_neg (key _ (by decide)),
      if_neg (key _ (by decide)), if_neg (key _ (by decide)), if_neg (key _ (by decide)),
      if_neg (key _ (by decide)), if_neg (key _ (by decide)), if_neg (key _ (by decide)),
      if_neg (key _ (by decide)), if_neg (key _ (by decide)), if_neg (key _ (by decide))]

/-- A whitespace or forbidden character leaves the initial loop state
untouched (the leading-separator suppression), provided the Unicode tables
never classify a whitespace character as alphanumeric (true of Rust's). -/
theorem processChar_collapse {U : UnicodeTables} {fu ft : Bool} {opt : SlugOptions}
    {sep ch : Char}
    (hU : ∀ c, is_rust_whitespace c = true → U.isAlphanumeric c = false)
    (h : is_rust_whitespace ch = true ∨ is_forbidden_filename_char ch = true) :
    processChar U fu ft opt sep ⟨[], true⟩ ch = ⟨[], true⟩ := by
  have hps : push_sep sep (⟨[], true⟩ : LoopState) = ⟨[], true⟩ := rfl
  by_cases hforb : is_forbidden_filename_char ch = true
  · unfold processChar
    rw [if_pos hforb]
    exact hps
  · have hws : is_rust_whitespace ch = true := by
      rcases h with hws | hf
      · exact hws
      · exact absurd hf hforb
    have hune : ¬(ch = '_' ∧ opt.keep_underscore = true) := fun hp =>
      ws_ne_underscore hws hp.1
    unfold processChar
    rw [if_neg hforb, ws_not_ascii_alnum hws, hU ch hws,
      transliterate_ws_none U opt.lowercase hws]
    simp only [Bool.false_eq_true, if_false, Bool.and_false, ite_self]
    rw [if_neg hune]
    exact hps

theorem runLoop_collapse {U : UnicodeTables} {fu ft : Bool} {opt : SlugOptions} {sep : Char}
    (hU : ∀ c, is_rust_whitespace c = true → U.isAlphanumeric c = false) :
    ∀ input : List Char,
      (∀ c ∈ input, is_rust_whitespace c = true ∨ is_forbidden_filename_char c = true) →
      runLoop U fu ft opt sep input = ⟨[], true⟩ := by
  intro input
  induction input with
  | nil => intro _; rfl
  | cons c t ih =>
    intro hin
    unfold runLoop at ih ⊢
    rw [List.foldl_cons, processChar_collapse hU (hin c (List.mem_cons_self c t))]
    exact ih (fun d hd => hin d (List.mem_cons_of_mem c hd))

/-- A fully collapsing input resolves to exactly the configured fallback,
provided the fallback survives the later passes unchanged. -/
theorem slugify_with_collapse (U : UnicodeTables) (fu ft : Bool) (input : List Char)
    (opt : SlugOptions)
    (hU : ∀ c, is_rust_whitespace c = true → U.isAlphanumeric c = false)
    (hin : ∀ c ∈ input, is_rust_whitespace c = true ∨ is_forbidden_filename_char c = true)
    (hfe : trim_end_seps_dots_spaces (sanitize_separator opt.separator) opt.fallback =
      opt.fallback)
    (hfh : opt.avoid_leading_dot = true → opt.fallback.head? ≠ some '.')
    (hfr : is_windows_reserved_name opt.fallback = false)
    (hflen : utf8Len opt.fallback ≤ opt.max_len_bytes) :
    slugify_with U fu ft input opt = opt.fallback := by
  have hcond4 : (opt.avoid_leading_dot && (opt.fallback.head? == some '.')) = false := by
    cases had : opt.avoid_leading_dot with
    | false => rfl
    | true =>
      rw [Bool.true_and]
      exact beq_eq_false_iff_ne.mpr (hfh had)
  have hpre : slugPreTrunc U fu ft (sanitize_separator opt.separator) opt input =
      opt.fallback := by
    unfold slugPreTrunc
    dsimp only
    rw [runLoop_collapse hU input hin]
    rw [show (⟨[], true⟩ : LoopState).out = ([] : List Char) from rfl]
    rw [show trim_start_seps (sanitize_separator opt.separator)
      (trim_end_seps_dots_spaces (sanitize_separator opt.separator) ([] : List Char)) =
      ([] : List Char) from rfl]
    rw [show applyFallback opt.fallback ([] : List Char) = opt.fallback from rfl]
    rw [hcond4]
    simp only [Bool.false_eq_true, if_false]
    rw [hfr]
    simp only [Bool.false_eq_true, if_false]
  unfold slugify_with
  dsimp only
  rw [hpre, truncate_eq_self hflen, hfe]
  unfold applyFallback
  rw [ite_self]

/-! # Claim C1: totality and non-emptiness of the result -/

/-- C1 (counterexample): the claim only assumes a non-empty fallback, but the
non-empty fallback `"."` (with `avoid_leading_dot` off) makes `slugify_with`
return exactly `"."` on the empty input. -/
theorem c1_counterexample :
    ({ defaultOptions with fallback := ['.'], avoid_leading_dot := false } :
        SlugOptions).fallback ≠ [] ∧
      slugify_with witTables false false []
        { defaultOptions with fallback := ['.'], avoid_leading_dot := false } = ['.'] := by
  constructor
  · decide
  · decide

/-- C1 (amended): `slugify_with` is a total function and, whenever the
configured fallback is none of the empty string, `"."` or `".."`, its result
is never the empty string, `"."` or `".."`.  Moreover, an input that fully
collapses (every character whitespace or forbidden/control, covering the
empty, all-whitespace and all-forbidden inputs) resolves to exactly the
configured fallback, provided the Unicode tables never classify whitespace
as alphanumeric (true of Rust's) and the fallback survives the later passes:
no trailing separator/dot/space, no leading dot when `avoid_leading_dot` is
set, not a reserved device name, and within `max_len_bytes`. -/
theorem c1_total_nonempty (U : UnicodeTables) (fu ft : Bool) (input : List Char)
    (opt : SlugOptions) (h1 : opt.fallback ≠ []) (h2 : opt.fallback ≠ ['.'])
    (h3 : opt.fallback ≠ ['.', '.']) :
    (slugify_with U fu ft input opt ≠ [] ∧ slugify_with U fu ft input opt ≠ ['.'] ∧
      slugify_with U fu ft input opt ≠ ['.', '.']) ∧
      ((∀ c, is_rust_whitespace c = true → U.isAlphanumeric c = false) →
        (∀ c ∈ input, is_rust_whitespace c = true ∨ is_forbidden_filename_char c = true) →
        trim_end_seps_dots_spaces (sanitize_separator opt.separator) opt.fallback =
          opt.fallback →
        (opt.avoid_leading_dot = true → opt.fallback.head? ≠ some '.') →
        is_windows_reserved_name opt.fallback = false →
        utf8Len opt.fallback ≤ opt.max_len_bytes →
        slugify_with U fu ft input opt = opt.fallback) := by
  constructor
  · unfold slugify_with
    dsimp only
    unfold applyFallback
    split
    · exact ⟨h1, h2, h3⟩
    · rename_i hcond
      rw [Bool.not_eq_true, emptyOrDots_false_iff] at hcond
      exact hcond
  · intro hU hin hfe hfh hfr hflen
    exact slugify_with_collapse U fu ft input opt hU hin hfe hfh hfr hflen

/-- The witness tables never classify a whitespace character as
alphanumeric. -/
theorem witTables_ws_not_alnum :
    ∀ c, is_rust_whitespace c = true → witTables.isAlphanumeric c = false := by
  intro c hc
  unfold is_rust_whitespace at hc
  simp only [Bool.or_eq_true, Bool.and_eq_true, decide_eq_true_eq] at hc
  show ((decide (97 ≤ c.toNat) && decide (c.toNat ≤ 122)) ||
    (decide (48 ≤ c.toNat) && decide (c.toNat ≤ 57))) = false
  simp only [Bool.or_eq_false_iff, Bool.and_eq_false_iff, decide_eq_false_iff_not]
  omega

/-- C1 witness at a concrete input: the default options satisfy every
fallback hypothesis, and the all-collapsing input `" \t"` yields a valid
result, namely exactly the fallback `"file"`. -/
theorem c1_total_nonempty_wit :
    (slugify_with witTables false false [' ', '\x09'] defaultOptions ≠ [] ∧
      slugify_with witTables false false [' ', '\x09'] defaultOptions ≠ ['.'] ∧
      slugify_with witTables false false [' ', '\x09'] defaultOptions ≠ ['.', '.']) ∧
      slugify_with witTables false false [' ', '\x09'] defaultOptions =
        defaultOptions.fallback :=
  ⟨(c1_total_nonempty witTables false false [' ', '\x09'] defaultOptions (by decide)
      (by decide) (by decide)).1,
    (c1_total_nonempty witTables false false [' ', '\x09'] defaultOptions (by decide)
      (by decide) (by decide)).2 witTables_ws_not_alnum (by decide) (by decide) (by decide)
      (by decide) (by decide)⟩

/-! # Claim C3: byte-length bound -/

/-- C3 (counterexample): with `max_len_bytes = 0` the final fallback
substitution makes the result 4 bytes long, exceeding the cap. -/
theorem c3_counterexample :
    ¬(utf8Len (slugify_with witTables false false []
          { defaultOptions with max_len_bytes := 0 }) ≤
        ({ defaultOptions with max_len_bytes := 0 } : SlugOptions).max_len_bytes) := by
  decide

/-- C3 (amended): whenever the fallback itself fits in `max_len_bytes`, the
UTF-8 byte length of the result of `slugify_with` is at most
`opt.max_len_bytes`; moreover length enforcement only ever removes whole
trailing code points (`truncateBytes` returns a prefix of the char list, so
no multi-byte character is ever split). -/
theorem c3_byte_length_bound (U : UnicodeTables) (fu ft : Bool) (input : List Char)
    (opt : SlugOptions) (h : utf8Len opt.fallback ≤ opt.max_len_bytes) :
    utf8Len (slugify_with U fu ft input opt) ≤ opt.max_len_bytes ∧
      ∀ l : List Char, truncateBytes opt.max_len_bytes l <+: l := by
  refine ⟨?_, fun l => truncate_pref _ l⟩
  unfold slugify_with
  dsimp only
  unfold applyFallback
  split
  · exact h
  · exact le_trans (utf8Len_mono (trimEnd_pref _ _).sublist) (truncate_le _ _)

/-- C3 witness at a concrete input under the default options. -/
theorem c3_byte_length_bound_wit :
    utf8Len (slugify_with witTables false false ['a', 'b', 'c'] defaultOptions) ≤
        defaultOptions.max_len_bytes ∧
      ∀ l : List Char, truncateBytes defaultOptions.max_len_bytes l <+: l :=
  c3_byte_length_bound witTables false false ['a', 'b', 'c'] defaultOptions (by decide)

/-! # Claim C10: byte length never exceeds max(cap, fallback length) -/

/-- C10: for every input and options, the UTF-8 byte length of the result is
at most the maximum of `max_len_bytes` and the fallback's byte length: the
final fallback substitution, written after truncation, is the only way the
cap can be exceeded. -/
theorem c10_len_le_max (U : UnicodeTables) (fu ft : Bool) (input : List Char)
    (opt : SlugOptions) :
    utf8Len (slugify_with U fu ft input opt) ≤
      max opt.max_len_bytes (utf8Len opt.fallback) := by
  unfold slugify_with
  dsimp only
  unfold applyFallback
  split
  · exact le_max_right _ _
  · exact le_trans (le_trans (utf8Len_mono (trimEnd_pref _ _).sublist) (truncate_le _ _))
      (le_max_left _ _)

/-! # Claim C4: Windows reserved-name avoidance -/

/-- C4 (counterexample): truncation runs after the reserved-name fix, so a
byte cap of 3 turns `"conx"` into the reserved name `"con"`. -/
theorem c4_counterexample :
    slugify_with witTables false false ['c', 'o', 'n', 'x']
        { defaultOptions with max_len_bytes := 3 } = ['c', 'o', 'n'] ∧
      is_windows_reserved_name ['c', 'o', 'n'] = true := by
  constructor
  · decide
  · decide

/-- The reserved-name pass leaves a non-reserved result. -/
theorem resfix_not_reserved (l : List Char) :
    is_windows_reserved_name (if is_windows_reserved_name l then '_' :: l else l) = false := by
  split
  · exact reserved_cons_underscore _
  · rename_i h
    simpa using h

/-- C4 (amended): the result is never a reserved device name provided the
fallback is non-empty and trailing-trimmed and the pre-truncation
intermediate already fits in `max_len_bytes` (that is, the byte-length
truncation pass does not fire; truncation itself can re-create a reserved
name, as the counterexample shows). -/
theorem c4_reserved_avoidance (U : UnicodeTables) (fu ft : Bool) (input : List Char)
    (opt : SlugOptions) (hfb1 : opt.fallback ≠ [])
    (hfb2 : trim_end_seps_dots_spaces (sanitize_separator opt.separator) opt.fallback =
      opt.fallback)
    (hlen : utf8Len (slugPreTrunc U fu ft (sanitize_separator opt.separator) opt input) ≤
      opt.max_len_bytes) :
    is_windows_reserved_name (slugify_with U fu ft input opt) = false := by
  have hfbe : ∀ c, opt.fallback.getLast? = some c →
      trimP (sanitize_separator opt.separator) c = false := by
    intro c hc
    rw [trimP_false_iff]
    refine trimEnd_getLast (sanitize_separator opt.separator) opt.fallback ?_
    rw [hfb2]
    exact hc
  have hends := @preTrunc_ends U fu ft opt (sanitize_separator opt.separator) input hfbe
  have hne := @preTrunc_ne_nil U fu ft opt (sanitize_separator opt.separator) input hfb1
  unfold slugify_with
  dsimp only
  rw [truncate_eq_self hlen]
  rw [trimEnd_eq_self _ _ hends]
  unfold applyFallback
  rw [if_neg ?hguard]
  case hguard =>
    rw [Bool.not_eq_true, emptyOrDots_false_iff]
    refine ⟨hne, ?_, ?_⟩
    · intro heq
      have h₁ := hends '.' (by rw [heq]; rfl)
      rw [trimP_false_iff] at h₁
      exact h₁.2.1 rfl
    · intro heq
      have h₁ := hends '.' (by rw [heq]; rfl)
      rw [trimP_false_iff] at h₁
      exact h₁.2.1 rfl
  unfold slugPreTrunc
  dsimp only
  exact resfix_not_reserved _

/-- C4 witness: under default options with input `"CON"` no truncation
occurs and the result `"_con"` is not reserved. -/
theorem c4_reserved_avoidance_wit :
    is_windows_reserved_name
      (slugify_with witTables false false ['C', 'O', 'N'] defaultOptions) = false :=
  c4_reserved_avoidance witTables false false ['C', 'O', 'N'] defaultOptions
    (by decide) (by decide) (by decide)

/-! # Claim C6: no adjacent separators -/

/-- C6 (counterexample): with separator `'_'` and `keep_underscore` on, a
literal underscore followed by a boundary yields two adjacent separators
(`"a_ b"` becomes `"a__b"`); independently, a fallback containing adjacent
separators is returned verbatim. -/
theorem c6_counterexample :
    noAdjSep (sanitize_separator '_')
        (slugify_with witTables false false ['a', '_', ' ', 'b']
          { defaultOptions with separator := '_' }) = false ∧
      noAdjSep (sanitize_separator '-')
        (slugify_with witTables false false []
          { defaultOptions with fallback := ['x', '-', '-', 'y'] }) = false := by
  constructor
  · decide
  · decide

/-- C6 (amended): the result never contains two adjacent separators provided
the separator is not `'_'` while `keep_underscore` is set (a kept underscore
equal to the separator defeats the `last_was_sep` collapsing) and the
fallback itself contains no two adjacent separators. -/
theorem c6_no_adjacent_separators (U : UnicodeTables) (fu ft : Bool) (input : List Char)
    (opt : SlugOptions)
    (hund : opt.keep_underscore = true → sanitize_separator opt.separator ≠ '_')
    (hfb : noAdjSep (sanitize_separator opt.separator) opt.fallback = true) :
    noAdjSep (sanitize_separator opt.separator) (slugify_with U fu ft input opt) = true := by
  rw [noAdjSep_iff_chain] at hfb ⊢
  unfold slugify_with
  dsimp only
  unfold applyFallback
  split
  · exact hfb
  · have h5 := @preTrunc_chain U fu ft opt (sanitize_separator opt.separator) input
      (allowed_sanitize _) hund hfb
    exact chainPref h5 ((trimEnd_pref _ _).trans (truncate_pref _ _))

/-- C6 witness at a concrete input under the default options. -/
theorem c6_no_adjacent_separators_wit :
    noAdjSep (sanitize_separator defaultOptions.separator)
      (slugify_with witTables false false ['a', ' ', ' ', 'b'] defaultOptions) = true :=
  c6_no_adjacent_separators witTables false false ['a', ' ', ' ', 'b'] defaultOptions
    (by decide) (by decide)

/-! # Claim C7: no leading or trailing separator, dot, or space -/

/-- C7 (counterexample): with separator `'_'`, the reserved-name fix prefixes
`'_'`, so `slugify_with "CON"` starts with the configured separator. -/
theorem c7_counterexample :
    (slugify_with witTables false false ['C', 'O', 'N']
        { defaultOptions with separator := '_', keep_underscore := false }).head? =
      some (sanitize_separator '_') := by
  decide

/-- C7 (amended): the result neither starts nor ends with the sanitized
separator, `'.'`, or `' '`, provided the sanitized separator is not `'_'`
(the hidden-file and reserved-name fixes prefix `'_'`) and the fallback
itself starts and ends cleanly. -/
theorem c7_no_edge_separator_dot_space (U : UnicodeTables) (fu ft : Bool)
    (input : List Char) (opt : SlugOptions)
    (hsep : sanitize_separator opt.separator ≠ '_')
    (hfh1 : opt.fallback.head? ≠ some (sanitize_separator opt.separator))
    (hfh2 : opt.fallback.head? ≠ some '.')
    (hfh3 : opt.fallback.head? ≠ some ' ')
    (hfe : trim_end_seps_dots_spaces (sanitize_separator opt.separator) opt.fallback =
      opt.fallback) :
    (∀ c, (slugify_with U fu ft input opt).head? = some c →
        c ≠ sanitize_separator opt.separator ∧ c ≠ '.' ∧ c ≠ ' ') ∧
      ∀ c, (slugify_with U fu ft input opt).getLast? = some c →
        c ≠ sanitize_separator opt.separator ∧ c ≠ '.' ∧ c ≠ ' ' := by
  have hfbh : ∀ c, opt.fallback.head? = some c →
      c ≠ sanitize_separator opt.separator ∧ c ≠ '.' ∧ c ≠ ' ' := by
    intro c hc
    refine ⟨?_, ?_, ?_⟩ <;> rintro rfl
    · exact hfh1 hc
    · exact hfh2 hc
    · exact hfh3 hc
  have hfbe : ∀ c, opt.fallback.getLast? = some c →
      trimP (sanitize_separator opt.separator) c = false := by
    intro c hc
    rw [trimP_false_iff]
    refine trimEnd_getLast (sanitize_separator opt.separator) opt.fallback ?_
    rw [hfe]
    exact hc
  constructor
  · intro c hc
    unfold slugify_with at hc
    dsimp only at hc
    unfold applyFallback at hc
    split at hc
    · exact hfbh c hc
    · have hpr : trim_end_seps_dots_spaces (sanitize_separator opt.separator)
          (truncateBytes opt.max_len_bytes
            (slugPreTrunc U fu ft (sanitize_separator opt.separator) opt input)) <+:
          slugPreTrunc U fu ft (sanitize_separator opt.separator) opt input :=
        (trimEnd_pref _ _).trans (truncate_pref _ _)
      have hne := head_ne_nil hc
      have hc₂ := (pref_head hpr hne).trans hc
      exact preTrunc_head (allowed_sanitize _) hsep hfbh c hc₂
  · intro c hc
    unfold slugify_with at hc
    dsimp only at hc
    unfold applyFallback at hc
    split at hc
    · have := hfbe c hc
      rw [trimP_false_iff] at this
      exact this
    · exact trimEnd_getLast _ _ hc

/-- C7 witness at a concrete input under the default options. -/
theorem c7_no_edge_separator_dot_space_wit :
    (∀ c, (slugify_with witTables false false ['.', 'a', '.'] defaultOptions).head? = some c →
        c ≠ sanitize_separator defaultOptions.separator ∧ c ≠ '.' ∧ c ≠ ' ') ∧
      ∀ c, (slugify_with witTables false false ['.', 'a', '.'] defaultOptions).getLast? =
          some c →
        c ≠ sanitize_separator defaultOptions.separator ∧ c ≠ '.' ∧ c ≠ ' ' :=
  c7_no_edge_separator_dot_space witTables false false ['.', 'a', '.'] defaultOptions
    (by decide) (by decide) (by decide) (by decide) (by decide)

/-! # Claim C8: separator sanitization -/

theorem sanitize_dash : sanitize_separator '-' = '-' := rfl

/-- `slugPreTrunc` never consults `opt.separator` (only the already-sanitized
`sep` argument), so the separator field is irrelevant to it. -/
theorem preTrunc_sep_field (U : UnicodeTables) (fu ft : Bool) (sep : Char) (x : List Char)
    (a b : Char) (lc : Bool) (ml : Nat) (au ku ad : Bool) (fb : List Char) :
    slugPreTrunc U fu ft sep ⟨a, lc, ml, au, ku, ad, fb⟩ x =
      slugPreTrunc U fu ft sep ⟨b, lc, ml, au, ku, ad, fb⟩ x := by
  unfold slugPreTrunc runLoop
  have hpc : processChar U fu ft ⟨a, lc, ml, au, ku, ad, fb⟩ sep =
      processChar U fu ft ⟨b, lc, ml, au, ku, ad, fb⟩ sep := by
    funext st ch
    rfl
  rw [hpc]

/-- C8: the separator actually used after sanitization always lies in the
allow-list `{-, _, +, ~}`, and any separator outside the allow-list behaves
exactly like `'-'`. -/
theorem c8_separator_policy (U : UnicodeTables) (fu ft : Bool) (x : List Char)
    (opt : SlugOptions) :
    Allowed (sanitize_separator opt.separator) ∧
      ((opt.separator ≠ '-' ∧ opt.separator ≠ '_' ∧ opt.separator ≠ '+' ∧
          opt.separator ≠ '~') →
        slugify_with U fu ft x opt = slugify_with U fu ft x { opt with separator := '-' }) := by
  refine ⟨allowed_sanitize _, ?_⟩
  intro h
  obtain ⟨s, lc, ml, au, ku, ad, fb⟩ := opt
  have hs : sanitize_separator s = '-' := by
    unfold sanitize_separator
    rw [if_neg]
    rintro (rfl | rfl | rfl | rfl)
    · exact h.1 rfl
    · exact h.2.1 rfl
    · exact h.2.2.1 rfl
    · exact h.2.2.2 rfl
  unfold slugify_with
  dsimp only
  rw [hs, sanitize_dash, preTrunc_sep_field U fu ft '-' x s '-' lc ml au ku ad fb]

/-- C8 witness: the out-of-allow-list separator `'%'` is sanitized to `'-'`
and produces the same result as `'-'` on a concrete input. -/
theorem c8_separator_policy_wit :
    Allowed (sanitize_separator ('%')) ∧
      slugify_with witTables false false ['a', ' ', 'b']
          { defaultOptions with separator := '%' } =
        slugify_with witTables false false ['a', ' ', 'b']
          { { defaultOptions with separator := '%' } with separator := '-' } :=
  ⟨(c8_separator_policy witTables false false ['a', ' ', 'b']
      { defaultOptions with separator := '%' }).1,
    (c8_separator_policy witTables false false ['a', ' ', 'b']
      { defaultOptions with separator := '%' }).2 (by decide)⟩

/-! # Unicode tables are irrelevant under the default options

With `lowercase = true` the transliteration table never consults
`is_uppercase`, and with `allow_unicode = false` the passthrough branch is
dead, so the whole slugifier is independent of the Unicode tables.  This
lets the concrete literal scenarios be evaluated on the computable
`witTables` instance. -/

theorem transliterate_true_irrel (U V : UnicodeTables) (ch : Char) :
    transliterate U ch true = transliterate V ch true := rfl

theorem processChar_U_irrel (U V : UnicodeTables) (fu ft : Bool) (opt : SlugOptions)
    (hlc : opt.lowercase = true) (hau : opt.allow_unicode = false) (sep : Char)
    (st : LoopState) (ch : Char) :
    processChar U fu ft opt sep st ch = processChar V fu ft opt sep st ch := by
  unfold processChar
  rw [hau, hlc]
  simp only [Bool.false_and, Bool.and_false, Bool.false_eq_true, if_false]
  rw [transliterate_true_irrel U V ch]

theorem slugify_U_irrel (U V : UnicodeTables) (fu ft : Bool) (x : List Char) :
    slugify U fu ft x = slugify V fu ft x := by
  unfold slugify slugify_with slugPreTrunc runLoop
  dsimp only
  have h : processChar U fu ft defaultOptions (sanitize_separator defaultOptions.separator) =
      processChar V fu ft defaultOptions (sanitize_separator defaultOptions.separator) := by
    funext st ch
    exact processChar_U_irrel U V fu ft defaultOptions rfl rfl _ st ch
  rw [h]

/-! # Claim C5: reserved-name literals -/

/-- C5: under default options (for any build capabilities and Unicode
tables — the inputs are pure ASCII), an exact reserved device name is
prefixed with `_` while `com0` and `lpt10` pass through unchanged. -/
theorem c5_reserved_literals (U : UnicodeTables) (fu ft : Bool) :
    slugify U fu ft ['C', 'O', 'N'] = ['_', 'c', 'o', 'n'] ∧
      slugify U fu ft ['c', 'o', 'm', '0'] = ['c', 'o', 'm', '0'] ∧
      slugify U fu ft ['l', 'p', 't', '1', '0'] = ['l', 'p', 't', '1', '0'] := by
  refine ⟨?_, ?_, ?_⟩ <;> rw [slugify_U_irrel U witTables fu ft] <;> cases fu <;> cases ft <;>
    decide

/-! # Claim C9: transliteration scenarios -/

/-- C9: with the transliteration capability enabled and default options,
`slugify "Crème brûlée" = "creme-brulee"` and `slugify "straße" = "strasse"`
(Latin diacritics map to base letters, eszett maps to `"ss"`, and each
substituted character is re-classified through the append-vs-boundary
rules). -/
theorem c9_transliteration (U : UnicodeTables) (fu : Bool) :
    slugify U fu true ['C', 'r', 'è', 'm', 'e', ' ', 'b', 'r', 'û', 'l', 'é', 'e'] =
        ['c', 'r', 'e', 'm', 'e', '-', 'b', 'r', 'u', 'l', 'e', 'e'] ∧
      slugify U fu true ['s', 't', 'r', 'a', 'ß', 'e'] =
        ['s', 't', 'r', 'a', 's', 's', 'e'] := by
  refine ⟨?_, ?_⟩ <;> rw [slugify_U_irrel U witTables fu true] <;> cases fu <;> decide

/-! # Claim C2: idempotence under default options

The strategy: characterise the alphabet of any default-options result (kept
lowercase ASCII alphanumerics, `_`, and the separator), show the result is a
fixed point of the main loop, and check each post-processing pass is the
identity on such a result. -/

/-- The characters that can appear in a default-options result. -/
def charOk (sep c : Char) : Prop :=
  (is_ascii_alphanumeric c = true ∧ to_ascii_lowercase c = c) ∨ c = '_' ∨ c = sep

instance (sep c : Char) : Decidable (charOk sep c) := by
  unfold charOk; infer_instance

theorem charOk_not_trim {sep c : Char} (hAll : Allowed sep) (h : charOk sep c) :
    c ≠ '.' ∧ c ≠ ' ' := by
  rcases h with ⟨hal, _⟩ | rfl | rfl
  · exact ⟨(alnum_notSpecial hal).2.2.2.2.1, (alnum_notSpecial hal).2.2.2.2.2⟩
  · exact ⟨by decide, by decide⟩
  · exact ⟨sep_ne_dot hAll, sep_ne_space hAll⟩

theorem charOk_size_one {sep c : Char} (hAll : Allowed sep) (h : charOk sep c) :
    c.utf8Size = 1 := by
  apply utf8Size_one
  rcases h with ⟨hal, _⟩ | rfl | rfl
  · exact alnum_toNat_le hal
  · decide
  · rcases hAll with rfl | rfl | rfl | rfl <;> decide

theorem push_alnum_lower (out : List Char) (ch : Char) :
    push_ascii_alnum out ch true = out ++ [to_ascii_lowercase ch] := rfl

theorem push_sep_alphabet {sep : Char} {st : LoopState}
    (h : ∀ c ∈ st.out, charOk sep c) :
    ∀ c ∈ (push_sep sep st).out, charOk sep c := by
  unfold push_sep
  split
  · intro c hc
    dsimp only at hc
    rcases List.mem_append.mp hc with hm | hm
    · exact h c hm
    · rw [List.mem_singleton] at hm
      exact Or.inr (Or.inr hm)
  · exact h

theorem translit_fold_alphabet {opt : SlugOptions} {sep : Char}
    (hlc : opt.lowercase = true) :
    ∀ (s : List Char) (acc : LoopState × Bool), (∀ c ∈ acc.1.out, charOk sep c) →
      ∀ c ∈ (s.foldl (translit_step opt sep) acc).1.out, charOk sep c := by
  intro s
  induction s with
  | nil => intro acc h; exact h
  | cons t s₂ ih =>
    intro acc h
    rw [List.foldl_cons]
    apply ih
    unfold translit_step
    split
    · rename_i ht
      intro c hc
      dsimp only at hc
      rw [hlc, push_alnum_lower] at hc
      rcases List.mem_append.mp hc with hm | hm
      · exact h c hm
      · rw [List.mem_singleton] at hm
        subst hm
        exact Or.inl ⟨(lower_props ht).1, (lower_props ht).2.1⟩
    · split
      · intro c hc
        dsimp only at hc
        rcases List.mem_append.mp hc with hm | hm
        · exact h c hm
        · rw [List.mem_singleton] at hm
          exact Or.inr (Or.inl hm)
      · split
        · exact push_sep_alphabet h
        · exact push_sep_alphabet h

theorem processChar_alphabet {U : UnicodeTables} {fu ft : Bool} {opt : SlugOptions}
    {sep : Char} (hlc : opt.lowercase = true) (hau : opt.allow_unicode = false)
    (st : LoopState) (ch : Char) (h : ∀ c ∈ st.out, charOk sep c) :
    ∀ c ∈ (processChar U fu ft opt sep st ch).out, charOk sep c := by
  unfold processChar
  split
  · exact push_sep_alphabet h
  · split
    · rename_i h2
      intro c hc
      dsimp only at hc
      rw [hlc, push_alnum_lower] at hc
      rcases List.mem_append.mp hc with hm | hm
      · exact h c hm
      · rw [List.mem_singleton] at hm
        subst hm
        exact Or.inl ⟨(lower_props h2).1, (lower_props h2).2.1⟩
    · split
      · intro c hc
        dsimp only at hc
        rcases List.mem_append.mp hc with hm | hm
        · exact h c hm
        · rw [List.mem_singleton] at hm
          exact Or.inr (Or.inl hm)
      · split
        · rename_i h4
          rw [hau] at h4
          simp at h4
        · dsimp only
          split
          · rename_i s _
            split
            · exact h
            · have hr := translit_fold_alphabet hlc s (st, false) h
              split
              · exact hr
              · split
                · exact push_sep_alphabet hr
                · exact push_sep_alphabet hr
          · split
            · exact push_sep_alphabet h
            · exact push_sep_alphabet h

theorem runLoop_alphabet {U : UnicodeTables} {fu ft : Bool} {opt : SlugOptions}
    {sep : Char} (hlc : opt.lowercase = true) (hau : opt.allow_unicode = false)
    (input : List Char) :
    ∀ c ∈ (runLoop U fu ft opt sep input).out, charOk sep c := by
  refine foldl_pres (fun st a h => processChar_alphabet hlc hau st a h) input ⟨[], true⟩ ?_
  intro c hc
  simp at hc

theorem resfix_mem {l : List Char} {c : Char}
    (hc : c ∈ (if is_windows_reserved_name l then '_' :: l else l)) : c = '_' ∨ c ∈ l := by
  split at hc
  · exact List.mem_cons.mp hc
  · exact Or.inr hc

theorem dotfix_mem {ad : Bool} {l : List Char} {c : Char}
    (hc : c ∈ (if ad && (l.head? == some '.') then '_' :: l else l)) : c = '_' ∨ c ∈ l := by
  split at hc
  · exact List.mem_cons.mp hc
  · exact Or.inr hc

theorem preTrunc_alphabet {U : UnicodeTables} {fu ft : Bool} {opt : SlugOptions}
    {sep : Char} {input : List Char} (hlc : opt.lowercase = true)
    (hau : opt.allow_unicode = false) (hfb : ∀ c ∈ opt.fallback, charOk sep c) :
    ∀ c ∈ slugPreTrunc U fu ft sep opt input, charOk sep c := by
  unfold slugPreTrunc
  dsimp only
  intro c hc
  rcases resfix_mem hc with rfl | hc₂
  · exact Or.inr (Or.inl rfl)
  · rcases dotfix_mem hc₂ with rfl | hc₃
    · exact Or.inr (Or.inl rfl)
    · unfold applyFallback at hc₃
      split at hc₃
      · exact hfb c hc₃
      · have hm : c ∈ (runLoop U fu ft opt sep input).out :=
          ((trimStart_suf sep _).sublist.trans (trimEnd_pref sep _).sublist).mem hc₃
        exact runLoop_alphabet hlc hau input c hm

/-! Characterisations of `processChar` on the characters a default-options
result can contain. -/

theorem transliterate_is_ascii (U : UnicodeTables) (ch : Char) (lc : Bool)
    (h : ch.toNat < 128) : transliterate U ch lc = none := by
  unfold transliterate
  rw [if_pos h]

theorem processChar_of_alnum {U : UnicodeTables} {fu ft : Bool} {opt : SlugOptions}
    {sep : Char} {st : LoopState} {ch : Char} (h : is_ascii_alphanumeric ch = true) :
    processChar U fu ft opt sep st ch = ⟨push_ascii_alnum st.out ch opt.lowercase, false⟩ := by
  unfold processChar
  rw [alnum_not_forbidden h, h]
  simp only [Bool.false_eq_true, if_false, if_true]

theorem processChar_of_underscore {U : UnicodeTables} {fu ft : Bool} {opt : SlugOptions}
    {sep : Char} {st : LoopState} (hku : opt.keep_underscore = true) :
    processChar U fu ft opt sep st '_' = ⟨st.out ++ ['_'], false⟩ := by
  have h₁ : is_forbidden_filename_char '_' = false := by decide
  have h₂ : is_ascii_alphanumeric '_' = false := by decide
  unfold processChar
  rw [h₁, h₂, hku]
  simp only [Bool.false_eq_true, if_false, and_true, if_true]

theorem processChar_of_sep {U : UnicodeTables} {fu ft : Bool} {opt : SlugOptions}
    {st : LoopState} {sep : Char} (hAll : Allowed sep) (hne : sep ≠ '_')
    (hau : opt.allow_unicode = false) :
    processChar U fu ft opt sep st sep = push_sep sep st := by
  have h₁ : is_forbidden_filename_char sep = false := by
    rcases hAll with rfl | rfl | rfl | rfl <;> decide
  have h₂ : is_ascii_alphanumeric sep = false := by
    rcases hAll with rfl | rfl | rfl | rfl <;> decide
  have h₃ : sep.toNat < 128 := by
    rcases hAll with rfl | rfl | rfl | rfl <;> decide
  unfold processChar
  rw [h₁, h₂, hau, transliterate_is_ascii U sep opt.lowercase h₃]
  simp only [Bool.false_eq_true, if_false, Bool.false_and, Bool.and_false, ite_self, hne,
    false_and, and_false]

theorem trimStart_eq_self {sep : Char} {l : List Char} (h : l.head? ≠ some sep) :
    trim_start_seps sep l = l := by
  unfold trim_start_seps
  apply dropWhile_eq_self_of_head
  intro c hc
  simp only [beq_eq_false_iff_ne, ne_eq]
  rintro rfl
  exact h hc

/-- The main loop reproduces verbatim any buffer whose characters are all in
the default-options alphabet, with no adjacent separators and tracked
boundary state. -/
theorem reproduce_aux {U : UnicodeTables} {fu ft : Bool} {opt : SlugOptions} {sep : Char}
    (hAll : Allowed sep) (hsep : sep ≠ '_') (hlc : opt.lowercase = true)
    (hku : opt.keep_underscore = true) (hau : opt.allow_unicode = false) :
    ∀ (z : List Char) (st : LoopState) (a : Char),
      (∀ c ∈ z, charOk sep c) → List.Chain' (SepRel sep) (a :: z) →
      st.out ≠ [] → st.out.getLast? = some a → st.lastSep = (a == sep) →
      (z.foldl (processChar U fu ft opt sep) st).out = st.out ++ z := by
  intro z
  induction z with
  | nil =>
    intro st a _ _ _ _ _
    simp
  | cons c z₂ ih =>
    intro st a hok hch hne hlast hflag
    have hch₂ := List.chain'_cons.mp hch
    rw [List.foldl_cons]
    rcases hok c (List.mem_cons_self c z₂) with ⟨hal, hlow⟩ | hC | hC
    · rw [processChar_of_alnum hal]
      have hpe : push_ascii_alnum st.out c opt.lowercase = st.out ++ [c] := by
        rw [hlc, push_alnum_lower, hlow]
      rw [hpe]
      have hcne : c ≠ sep := notSpecial_ne_sep hAll (alnum_notSpecial hal)
      rw [ih ⟨st.out ++ [c], false⟩ c (fun d hd => hok d (List.mem_cons_of_mem c hd)) hch₂.2
        (by simp) (List.getLast?_concat _) (by simp [hcne])]
      simp
    · subst hC
      rw [processChar_of_underscore hku]
      rw [ih ⟨st.out ++ ['_'], false⟩ '_' (fun d hd => hok d (List.mem_cons_of_mem _ hd)) hch₂.2
        (by simp) (List.getLast?_concat _) (by simp [Ne.symm hsep])]
      simp
    · rw [hC] at hch₂ ⊢
      rw [processChar_of_sep hAll hsep hau]
      have hane : a ≠ sep := fun he => hch₂.1 ⟨he, rfl⟩
      have hflag₂ : st.lastSep = false := by
        rw [hflag]
        simp [hane]
      have hps : push_sep sep st = ⟨st.out ++ [sep], true⟩ := by
        unfold push_sep
        rw [if_pos ⟨hflag₂, hne⟩]
      rw [hps]
      rw [ih ⟨st.out ++ [sep], true⟩ sep (fun d hd => hok d (List.mem_cons_of_mem _ hd)) hch₂.2
        (by simp) (List.getLast?_concat _) (by simp)]
      simp

theorem runLoop_fix {U : UnicodeTables} {fu ft : Bool} {opt : SlugOptions} {sep : Char}
    (hAll : Allowed sep) (hsep : sep ≠ '_') (hlc : opt.lowercase = true)
    (hku : opt.keep_underscore = true) (hau : opt.allow_unicode = false)
    (z : List Char) (hok : ∀ c ∈ z, charOk sep c)
    (hch : List.Chain' (SepRel sep) z) (hhead : z.head? ≠ some sep) :
    (runLoop U fu ft opt sep z).out = z := by
  cases z with
  | nil => rfl
  | cons c z₂ =>
    unfold runLoop
    rw [List.foldl_cons]
    have hcne : c ≠ sep := by
      rintro rfl
      exact hhead rfl
    rcases hok c (List.mem_cons_self c z₂) with ⟨hal, hlow⟩ | hC | hC
    · rw [processChar_of_alnum hal]
      have hpe : push_ascii_alnum (⟨[], true⟩ : LoopState).out c opt.lowercase = [c] := by
        rw [hlc, push_alnum_lower, hlow]
        rfl
      rw [hpe]
      rw [reproduce_aux hAll hsep hlc hku hau z₂ ⟨[c], false⟩ c
        (fun d hd => hok d (List.mem_cons_of_mem c hd)) hch (by simp) rfl (by simp [hcne])]
      rfl
    · subst hC
      rw [processChar_of_underscore hku]
      have hsingle : (⟨[], true⟩ : LoopState).out ++ ['_'] = ['_'] := rfl
      rw [hsingle]
      rw [reproduce_aux hAll hsep hlc hku hau z₂ ⟨['_'], false⟩ '_'
        (fun d hd => hok d (List.mem_cons_of_mem _ hd)) hch (by simp) rfl
        (by simp [Ne.symm hsep])]
      rfl
    · exact absurd hC hcne

/-! Length bounds for the truncation-then-trim tail of the pipeline. -/

theorem dropWhile_tail_ge {p : Char → Bool} {r : List Char}
    (h : ∀ a b r₃, r = a :: b :: r₃ → p a = true → p b = false) :
    r.length ≤ (r.dropWhile p).length + 1 := by
  cases r with
  | nil => simp
  | cons a r₂ =>
    rw [List.dropWhile_cons]
    split
    · rename_i hpa
      cases r₂ with
      | nil => simp [List.dropWhile]
      | cons b r₃ =>
        rw [List.dropWhile_cons, if_neg]
        · simp
        · rw [h a b r₃ rfl hpa]
          simp
    · simp

/-- With no adjacent separators and no dots or spaces in the buffer, the
trailing trim removes at most one character. -/
theorem trimEnd_length_ge {sep : Char} {l : List Char}
    (hch : List.Chain' (SepRel sep) l) (hdot : '.' ∉ l) (hsp : ' ' ∉ l) :
    l.length ≤ (trim_end_seps_dots_spaces sep l).length + 1 := by
  rw [trimEnd_eq_reverse, List.length_reverse]
  have key : ∀ a b r₃, l.reverse = a :: b :: r₃ → trimP sep a = true → trimP sep b = false := by
    intro a b r₃ hr hpa
    have haL : a ∈ l := List.mem_reverse.mp (by rw [hr]; simp)
    have hbL : b ∈ l := List.mem_reverse.mp (by rw [hr]; simp)
    have hasep : a = sep := by
      unfold trimP at hpa
      simp only [Bool.or_eq_true, beq_iff_eq] at hpa
      rcases hpa with (rfl | rfl) | rfl
      · rfl
      · exact absurd haL hdot
      · exact absurd haL hsp
    have hl : l = r₃.reverse ++ [b, a] := by
      calc l = l.reverse.reverse := (List.reverse_reverse l).symm
        _ = (a :: b :: r₃).reverse := by rw [hr]
        _ = r₃.reverse ++ [b, a] := by simp
    have hrel : SepRel sep b a := by
      have hsuf : [b, a] <:+ l := ⟨r₃.reverse, hl.symm⟩
      exact (List.chain'_cons.mp (chainSuf hch hsuf)).1
    have hbne : b ≠ sep := fun he => hrel ⟨he, hasep⟩
    unfold trimP
    simp only [Bool.or_eq_false_iff, beq_eq_false_iff_ne, ne_eq]
    exact ⟨⟨hbne, fun he => hdot (he ▸ hbL)⟩, fun he => hsp (he ▸ hbL)⟩
  calc l.length = l.reverse.length := (List.length_reverse l).symm
    _ ≤ _ := dropWhile_tail_ge key

theorem is_1_to_9_length {M : List Char} (h : is_1_to_9_suffix M = true) : M.length = 1 := by
  cases M with
  | nil => simp [is_1_to_9_suffix] at h
  | cons a t =>
    cases t with
    | nil => rfl
    | cons b t₂ => simp [is_1_to_9_suffix] at h

/-- A Windows reserved device name has at most 4 characters. -/
theorem reserved_length {l : List Char} (h : is_windows_reserved_name l = true) :
    l.length ≤ 4 := by
  have hlen : (ascii_upper l).length = l.length := by
    unfold ascii_upper
    rw [List.length_map]
  unfold is_windows_reserved_name at h
  simp only [Bool.or_eq_true, Bool.and_eq_true, decide_eq_true_eq] at h
  rcases h with ((h | h | h | h) | ⟨_, h₂⟩) | ⟨_, h₂⟩
  · rw [← hlen, h]; decide
  · rw [← hlen, h]; decide
  · rw [← hlen, h]; decide
  · rw [← hlen, h]; decide
  · have h₃ := is_1_to_9_length h₂
    rw [List.length_drop] at h₃
    omega
  · have h₃ := is_1_to_9_length h₂
    rw [List.length_drop] at h₃
    omega

theorem preTrunc_not_reserved {U : UnicodeTables} {fu ft : Bool} {opt : SlugOptions}
    {sep : Char} {input : List Char} :
    is_windows_reserved_name (slugPreTrunc U fu ft sep opt input) = false := by
  unfold slugPreTrunc
  dsimp only
  exact resfix_not_reserved _

/-- `slugify` unfolded at the default options (the sanitized separator is
`'-'`, the cap is 255 and the fallback is `"file"`). -/
theorem slugify_eq (U : UnicodeTables) (fu ft : Bool) (x : List Char) :
    slugify U fu ft x =
      applyFallback ['f', 'i', 'l', 'e']
        (trim_end_seps_dots_spaces '-'
          (truncateBytes 255 (slugPreTrunc U fu ft '-' defaultOptions x))) := rfl

/-- Every property of a default-options result needed to show it is a fixed
point: its alphabet, separator spacing, clean edges, non-emptiness,
reserved-name freedom and byte length. -/
theorem slug_result_props (U : UnicodeTables) (fu ft : Bool) (x : List Char) :
    (∀ c ∈ slugify U fu ft x, charOk '-' c) ∧
      List.Chain' (SepRel '-') (slugify U fu ft x) ∧
      slugify U fu ft x ≠ [] ∧
      (slugify U fu ft x).head? ≠ some '-' ∧
      (∀ c, (slugify U fu ft x).getLast? = some c → trimP '-' c = false) ∧
      is_windows_reserved_name (slugify U fu ft x) = false ∧
      utf8Len (slugify U fu ft x) ≤ 255 := by
  have hAll : Allowed '-' := Or.inl rfl
  have hund : defaultOptions.keep_underscore = true → ('-' : Char) ≠ '_' := fun _ => by decide
  have hfbok : ∀ c ∈ (['f', 'i', 'l', 'e'] : List Char), charOk '-' c := by
    intro c hc
    simp only [List.mem_cons, List.not_mem_nil, or_false] at hc
    rcases hc with rfl | rfl | rfl | rfl <;> decide
  have hfbch : List.Chain' (SepRel '-') (['f', 'i', 'l', 'e'] : List Char) :=
    (noAdjSep_iff_chain '-' _).mp (by decide)
  have hfbh : ∀ c, (['f', 'i', 'l', 'e'] : List Char).head? = some c →
      c ≠ '-' ∧ c ≠ '.' ∧ c ≠ ' ' := by
    intro c hc
    simp only [List.head?_cons, Option.some.injEq] at hc
    subst hc
    refine ⟨by decide, by decide, by decide⟩
  have hfbe : ∀ c, (['f', 'i', 'l', 'e'] : List Char).getLast? = some c →
      trimP '-' c = false := by
    intro c hc
    have hce : (['f', 'i', 'l', 'e'] : List Char).getLast? = some 'e' := rfl
    rw [hce] at hc
    simp only [Option.some.injEq] at hc
    subst hc
    decide
  have hXpref : trim_end_seps_dots_spaces '-' (truncateBytes 255
      (slugPreTrunc U fu ft '-' defaultOptions x)) <+:
      slugPreTrunc U fu ft '-' defaultOptions x :=
    (trimEnd_pref _ _).trans (truncate_pref _ _)
  have hs5alpha : ∀ c ∈ slugPreTrunc U fu ft '-' defaultOptions x, charOk '-' c :=
    preTrunc_alphabet rfl rfl hfbok
  have hs5chain : List.Chain' (SepRel '-') (slugPreTrunc U fu ft '-' defaultOptions x) :=
    preTrunc_chain hAll hund hfbch
  refine ⟨?_, ?_, ?_, ?_, ?_, ?_, ?_⟩
  · intro c hc
    rw [slugify_eq] at hc
    unfold applyFallback at hc
    split at hc
    · exact hfbok c hc
    · exact hs5alpha c (hXpref.sublist.mem hc)
  · rw [slugify_eq]
    unfold applyFallback
    split
    · exact hfbch
    · exact chainPref hs5chain hXpref
  · rw [slugify_eq]
    unfold applyFallback
    split
    · decide
    · rename_i hcond
      rw [Bool.not_eq_true, emptyOrDots_false_iff] at hcond
      exact hcond.1
  · rw [slugify_eq]
    unfold applyFallback
    split
    · decide
    · intro hc
      have hne := head_ne_nil hc
      have hc₂ := (pref_head hXpref hne).trans hc
      exact (preTrunc_head hAll (by decide) hfbh '-' hc₂).1 rfl
  · intro c hc
    rw [slugify_eq] at hc
    unfold applyFallback at hc
    split at hc
    · exact hfbe c hc
    · rw [trimP_false_iff]
      exact trimEnd_getLast _ _ hc
  · rw [slugify_eq]
    unfold applyFallback
    split
    · decide
    · by_cases hle : utf8Len (slugPreTrunc U fu ft '-' defaultOptions x) ≤ 255
      · rw [truncate_eq_self hle, trimEnd_eq_self _ _ (preTrunc_ends hfbe)]
        exact preTrunc_not_reserved
      · set s₅ := slugPreTrunc U fu ft '-' defaultOptions x with hs₅
        have hones : ∀ c ∈ s₅, c.utf8Size = 1 := fun c hc =>
          charOk_size_one hAll (hs5alpha c hc)
        have htlen : (truncateBytes 255 s₅).length = 255 :=
          truncate_all_one_length hones (by omega)
        have htch : List.Chain' (SepRel '-') (truncateBytes 255 s₅) :=
          chainPref hs5chain (truncate_pref 255 s₅)
        have htdot : '.' ∉ truncateBytes 255 s₅ := fun hm =>
          (charOk_not_trim hAll (hs5alpha '.' ((truncate_pref 255 s₅).sublist.mem hm))).1 rfl
        have htsp : ' ' ∉ truncateBytes 255 s₅ := fun hm =>
          (charOk_not_trim hAll (hs5alpha ' ' ((truncate_pref 255 s₅).sublist.mem hm))).2 rfl
        have hge := trimEnd_length_ge htch htdot htsp
        cases hres : is_windows_reserved_name
            (trim_end_seps_dots_spaces '-' (truncateBytes 255 s₅)) with
        | false => rfl
        | true =>
          have h₄ := reserved_length hres
          rw [htlen] at hge
          exact absurd h₄ (by omega)
  · rw [slugify_eq]
    unfold applyFallback
    split
    · decide
    · exact le_trans (utf8Len_mono (trimEnd_pref _ _).sublist) (truncate_le _ _)

/-- C2: idempotence of `slugify` under the default options, for any build
capabilities and Unicode tables. -/
theorem c2_idempotent (U : UnicodeTables) (fu ft : Bool) (x : List Char) :
    slugify U fu ft (slugify U fu ft x) = slugify U fu ft x := by
  obtain ⟨ha, hb, hcne, hd, he, hf, hg⟩ := slug_result_props U fu ft x
  have hAll : Allowed '-' := Or.inl rfl
  set y := slugify U fu ft x with hy
  have hdot : '.' ∉ y := fun hm => (charOk_not_trim hAll (ha '.' hm)).1 rfl
  have hnotdots : y ≠ ['.'] ∧ y ≠ ['.', '.'] := by
    constructor <;> intro he₂ <;> exact hdot (by rw [he₂]; simp)
  have hloop : (runLoop U fu ft defaultOptions '-' y).out = y :=
    runLoop_fix hAll (by decide) rfl rfl rfl y ha hb hd
  have hok : emptyOrDots y = false := by
    rw [emptyOrDots_false_iff]
    exact ⟨hcne, hnotdots.1, hnotdots.2⟩
  have hnd : (y.head? == some '.') = false := by
    cases hh : y.head? with
    | none => rfl
    | some c =>
      have hmem : c ∈ y := List.mem_of_mem_head? (by rw [hh]; rfl)
      have hcd : c ≠ '.' := (charOk_not_trim hAll (ha c hmem)).1
      simp [hcd]
  have hpre : slugPreTrunc U fu ft '-' defaultOptions y = y := by
    unfold slugPreTrunc
    dsimp only
    rw [hloop, trimEnd_eq_self '-' y he, trimStart_eq_self hd]
    unfold applyFallback
    rw [hok]
    simp only [Bool.false_eq_true, if_false]
    rw [hnd, Bool.and_false]
    simp only [Bool.false_eq_true, if_false]
    rw [hf]
    simp only [Bool.false_eq_true, if_false]
  rw [slugify_eq, hpre, truncate_eq_self hg, trimEnd_eq_self '-' y he]
  unfold applyFallback
  rw [hok]
  simp only [Bool.false_eq_true, if_false]

end Minislug
